import Mathlib

/-!
Verification of the adversarial-search core of the Isolation game agent
(`game_agent.py`): depth-limited minimax (`MinimaxPlayer`), alpha-beta search
(`AlphaBetaPlayer`), their timeout-aware terminal tests, and the two drivers
(`get_move` fixed-depth and iterative deepening).

Modelling conventions:
* Scores are Python floats used only through comparison, `min`/`max`, and the
  two infinities, so they are embedded as `V := WithBot (WithTop ℤ)`
  (`⊥` = `float("-inf")`, `⊤` = `float("inf")`).
* The board (`isolation.Board`, external to the repository) is abstracted as a
  `GameSpec`: legal-move enumeration, move application (`forecast_move`), the
  pluggable scorer `score(game, player)`, and the side to move.
* `randint(0, len(actions) - 1)` is modelled by an index parameter `rIdx`
  reduced modulo the list length: a fixed seed fixes the draw.
* The recursion of `_min_value`/`_max_value` is driven by the remaining
  number of plies `rem`.  At a node of ply-depth `depth` inside a search
  whose agent has `search_depth = sd`, the code tests
  `depth >= self.search_depth`; every call site maintains `rem = sd - depth`
  (truncated subtraction), so that test is exactly `rem = 0`.  The ply-depth
  itself is carried separately where the code observes it (terminal-test
  logging, `timeout_depths`).
* Python `sorted` on coordinate pairs is lexicographic; since that order is
  total, transitive and antisymmetric the sorted permutation is unique, so it
  is embedded as insertion sort by the lexicographic order.
-/

/-- Score values: floats with the two infinities, ordered. -/
abbrev V : Type := WithBot (WithTop ℤ)

/-- A finite score value. -/
def Vf (n : ℤ) : V := ((n : WithTop ℤ) : V)

/-- A board coordinate pair; `(-1, -1)` is the sentinel "no move". -/
abbrev Move : Type := ℤ × ℤ

/-- Python tuple comparison on coordinate pairs (lexicographic). -/
def moveLe (a b : Move) : Prop := a.1 < b.1 ∨ (a.1 = b.1 ∧ a.2 ≤ b.2)

instance : DecidableRel moveLe := fun a b => by unfold moveLe; infer_instance

instance : IsTotal Move moveLe := by
  constructor; intro a b; unfold moveLe; omega

instance : IsTrans Move moveLe := by
  constructor; intro a b c h₁ h₂; unfold moveLe at h₁ h₂ ⊢; omega

/-- Python `sorted(actions)` (unique ascending arrangement under `moveLe`). -/
def sortMoves (l : List Move) : List Move := List.insertionSort moveLe l

/-- The external board interface consumed by the search
(`isolation.Board` methods used by `game_agent.py`). -/
structure GameSpec (G : Type) (P : Type) where
  legalMoves : G → List Move
  forecastMove : G → Move → G
  scoreFn : G → P → V
  mover : G → P

/-- `actions[randint(0, len(actions) - 1)]`, the seeded random root pick. -/
def pickMove (l : List Move) (rIdx : Nat) : Move := l.getD (rIdx % l.length) (-1, -1)

theorem pickMove_mem (l : List Move) (rIdx : Nat) (h : l ≠ []) : pickMove l rIdx ∈ l := by
  have hlen : rIdx % l.length < l.length :=
    Nat.mod_lt _ (List.length_pos.mpr h)
  unfold pickMove
  rw [List.getD_eq_getElem l _ hlen]
  exact List.getElem_mem hlen

section PureSearch

variable {G P : Type}

/-! ### Pure (timeout-free) minimax: `MinimaxPlayer` with a clock that never
falls below the threshold, so no timer check ever raises.  `_terminal_test`
reduces to `depth >= self.search_depth or len(game.get_legal_moves()) == 0`,
i.e. `rem = 0 ∨ legalMoves g = []`. -/

mutual
/-- `MinimaxPlayer._min_value` (timeout-free). -/
def mmMinValue (gs : GameSpec G P) (p : P) (g : G) (rem : Nat) : V :=
  if h : rem = 0 ∨ gs.legalMoves g = [] then gs.scoreFn g p
  else mmMinLoop gs p g (gs.legalMoves g) ⊤ (rem - 1)
termination_by (rem, 0, 0)

/-- The `for action in game.get_legal_moves(): v = min(v, ...)` loop of
`MinimaxPlayer._min_value`. -/
def mmMinLoop (gs : GameSpec G P) (p : P) (g : G) (l : List Move) (v : V) (r : Nat) : V :=
  match l with
  | [] => v
  | a :: rest =>
    let w := mmMaxValue gs p (gs.forecastMove g a) r
    mmMinLoop gs p g rest (min v w) r
termination_by (r, 1, l.length)

/-- `MinimaxPlayer._max_value` (timeout-free). -/
def mmMaxValue (gs : GameSpec G P) (p : P) (g : G) (rem : Nat) : V :=
  if h : rem = 0 ∨ gs.legalMoves g = [] then gs.scoreFn g p
  else mmMaxLoop gs p g (gs.legalMoves g) ⊥ (rem - 1)
termination_by (rem, 0, 0)

/-- The `v = max(v, ...)` loop of `MinimaxPlayer._max_value`. -/
def mmMaxLoop (gs : GameSpec G P) (p : P) (g : G) (l : List Move) (v : V) (r : Nat) : V :=
  match l with
  | [] => v
  | a :: rest =>
    let w := mmMinValue gs p (gs.forecastMove g a) r
    mmMaxLoop gs p g rest (max v w) r
termination_by (r, 1, l.length)
end

/-- The root loop of `MinimaxPlayer.minimax`: `best_score` starts at `-inf`,
a move replaces the best only on strictly greater score.  Children are at
ply-depth 1, hence `r = sd - 1` remaining plies. -/
def mmRootLoop (gs : GameSpec G P) (p : P) (g : G) (l : List Move)
    (best : Move) (bs : V) (r : Nat) : Move × V :=
  match l with
  | [] => (best, bs)
  | a :: rest =>
    let sc := mmMinValue gs p (gs.forecastMove g a) r
    if bs < sc then mmRootLoop gs p g rest a sc r
    else mmRootLoop gs p g rest best bs r

/-- `MinimaxPlayer.minimax` (timeout-free).  `sd` is the agent field
`self.search_depth`; the `depth` argument is received but, as in the source,
never read (the terminal test uses `self.search_depth`). -/
def minimax (gs : GameSpec G P) (p : P) (sd : Nat) (g : G) (depth : Nat) (rIdx : Nat) :
    Move :=
  let actions := gs.legalMoves g
  if actions = [] then (-1, -1)
  else (mmRootLoop gs p g actions (pickMove actions rIdx) ⊥ (sd - 1)).1

/-! ### Pure (timeout-free) alpha-beta: `AlphaBetaPlayer`. -/

mutual
/-- `AlphaBetaPlayer._max_value` (timeout-free). -/
def abMaxValue (gs : GameSpec G P) (p : P) (g : G) (alpha beta : V) (rem : Nat) : V :=
  if h : rem = 0 ∨ gs.legalMoves g = [] then gs.scoreFn g p
  else abMaxLoop gs p g (gs.legalMoves g) ⊥ alpha beta (rem - 1)
termination_by (rem, 0, 0)

/-- The pruning loop of `AlphaBetaPlayer._max_value`:
`v = max(v, min_value(...)); if v >= beta: return v; alpha = max(alpha, v)`. -/
def abMaxLoop (gs : GameSpec G P) (p : P) (g : G) (l : List Move)
    (v alpha beta : V) (r : Nat) : V :=
  match l with
  | [] => v
  | a :: rest =>
    let w := abMinValue gs p (gs.forecastMove g a) alpha beta r
    let v' := max v w
    if beta ≤ v' then v'
    else abMaxLoop gs p g rest v' (max alpha v') beta r
termination_by (r, 1, l.length)

/-- `AlphaBetaPlayer._min_value` (timeout-free). -/
def abMinValue (gs : GameSpec G P) (p : P) (g : G) (alpha beta : V) (rem : Nat) : V :=
  if h : rem = 0 ∨ gs.legalMoves g = [] then gs.scoreFn g p
  else abMinLoop gs p g (gs.legalMoves g) ⊤ alpha beta (rem - 1)
termination_by (rem, 0, 0)

/-- The pruning loop of `AlphaBetaPlayer._min_value`:
`v = min(v, max_value(...)); if v <= alpha: return v; beta = min(beta, v)`. -/
def abMinLoop (gs : GameSpec G P) (p : P) (g : G) (l : List Move)
    (v alpha beta : V) (r : Nat) : V :=
  match l with
  | [] => v
  | a :: rest =>
    let w := abMaxValue gs p (gs.forecastMove g a) alpha beta r
    let v' := min v w
    if v' ≤ alpha then v'
    else abMinLoop gs p g rest v' alpha (min beta v') r
termination_by (r, 1, l.length)
end

/-- The root loop of `AlphaBetaPlayer.alphabeta`:
`if v > alpha: alpha = v; best_move = action` (no pruning test at the root;
`beta` is passed through unchanged). -/
def abRootLoop (gs : GameSpec G P) (p : P) (g : G) (l : List Move)
    (best : Move) (alpha beta : V) (r : Nat) : Move :=
  match l with
  | [] => best
  | a :: rest =>
    let v := abMinValue gs p (gs.forecastMove g a) alpha beta r
    if alpha < v then abRootLoop gs p g rest a v beta r
    else abRootLoop gs p g rest best alpha beta r

/-- `AlphaBetaPlayer.alphabeta` (timeout-free).  `sd` is the agent field
`self.search_depth`; the `depth` argument is, as in the source, never read.
Root moves are visited in `sorted(actions)` order. -/
def alphabeta (gs : GameSpec G P) (p : P) (sd : Nat) (g : G) (depth : Nat)
    (alpha beta : V) (rIdx : Nat) : Move :=
  let actions := gs.legalMoves g
  if actions = [] then (-1, -1)
  else abRootLoop gs p g (sortMoves actions) (pickMove actions rIdx) alpha beta (sd - 1)

/-- The full-enumeration value of a root move: the minimax value of the
position after playing it, searched to the agent's `search_depth`. -/
def rootVal (gs : GameSpec G P) (p : P) (sd : Nat) (g : G) (a : Move) : V :=
  mmMinValue gs p (gs.forecastMove g a) (sd - 1)

/-- The best full-enumeration root value over the legal moves. -/
def bestVal (gs : GameSpec G P) (p : P) (sd : Nat) (g : G) : V :=
  (gs.legalMoves g).foldl (fun acc a => max acc (rootVal gs p sd g a)) ⊥

end PureSearch

-- Concrete test fixture: a small explicit game tree on node ids.  A move's
-- first coordinate is the id of the node it leads to.  Node 0 is the root
-- with moves (1,0) ↦ node 1 and (2,0) ↦ node 2; node 1 has one move
-- (3,0) ↦ node 3; node 2 has one move (4,0) ↦ node 4.
def gsA : GameSpec Nat Bool where
  legalMoves g :=
    if g = 0 then [(1, 0), (2, 0)]
    else if g = 1 then [(3, 0)]
    else if g = 2 then [(4, 0)]
    else []
  forecastMove _ m := m.1.toNat
  scoreFn g _ :=
    if g = 1 then Vf 5
    else if g = 2 then Vf 3
    else if g = 3 then Vf 0
    else if g = 4 then Vf 7
    else Vf (-100)
  mover g := g % 2 = 0

section Helpers

variable {G P : Type}

theorem foldl_max_acc_le (f : Move → V) :
    ∀ (l : List Move) (acc : V), acc ≤ l.foldl (fun v a => max v (f a)) acc := by
  intro l
  induction l with
  | nil => intro acc; exact le_rfl
  | cons a rest ih =>
    intro acc
    exact le_trans (le_max_left _ _) (ih (max acc (f a)))

theorem foldl_max_mem_le (f : Move → V) :
    ∀ (l : List Move) (acc : V) (a : Move), a ∈ l →
      f a ≤ l.foldl (fun v a => max v (f a)) acc := by
  intro l
  induction l with
  | nil => intro acc a ha; cases ha
  | cons b rest ih =>
    intro acc a ha
    rcases List.mem_cons.mp ha with h | h
    · subst h
      exact le_trans (le_max_right _ _) (foldl_max_acc_le f rest _)
    · exact ih _ a h

theorem foldl_max_perm (f : Move → V) {l₁ l₂ : List Move} (h : l₁.Perm l₂) (acc : V) :
    l₁.foldl (fun v a => max v (f a)) acc = l₂.foldl (fun v a => max v (f a)) acc := by
  haveI : RightCommutative (fun (v : V) (a : Move) => max v (f a)) :=
    ⟨fun b a₁ a₂ => by rw [max_assoc, max_comm (f a₁) (f a₂), ← max_assoc]⟩
  exact h.foldl_eq acc

theorem mmMaxLoop_eq_max (gs : GameSpec G P) (p : P) (g : G) (r : Nat) :
    ∀ (l : List Move) (v : V),
      mmMaxLoop gs p g l v r = max v (mmMaxLoop gs p g l ⊥ r) := by
  intro l
  induction l with
  | nil => intro v; simp [mmMaxLoop]
  | cons a rest ih =>
    intro v
    simp only [mmMaxLoop]
    rw [ih (max v _), ih (max ⊥ _)]
    simp [max_assoc, bot_le, max_eq_right]

theorem mmMinLoop_eq_min (gs : GameSpec G P) (p : P) (g : G) (r : Nat) :
    ∀ (l : List Move) (v : V),
      mmMinLoop gs p g l v r = min v (mmMinLoop gs p g l ⊤ r) := by
  intro l
  induction l with
  | nil => intro v; simp [mmMinLoop]
  | cons a rest ih =>
    intro v
    simp only [mmMinLoop]
    rw [ih (min v _), ih (min ⊤ _)]
    simp [min_assoc, le_top, min_eq_right]

theorem mmMaxLoop_acc_le (gs : GameSpec G P) (p : P) (g : G) (r : Nat)
    (l : List Move) (v : V) : v ≤ mmMaxLoop gs p g l v r := by
  rw [mmMaxLoop_eq_max]; exact le_max_left _ _

theorem mmMinLoop_le_acc (gs : GameSpec G P) (p : P) (g : G) (r : Nat)
    (l : List Move) (v : V) : mmMinLoop gs p g l v r ≤ v := by
  rw [mmMinLoop_eq_min]; exact min_le_left _ _

end Helpers

section KnuthMoore

variable {G P : Type}

/-- Fail-soft specification of an alpha-beta result `r` against the exact
minimax value `t` of the same node under the window `(alpha, beta)`:
fail-low results upper-bound `t`, in-window results are exact, fail-high
results lower-bound `t`. -/
def KMrel (t r alpha beta : V) : Prop :=
  (r ≤ alpha → t ≤ r) ∧ (alpha < r → r < beta → r = t) ∧ (beta ≤ r → r ≤ t)

theorem KMrel_refl (t alpha beta : V) : KMrel t t alpha beta :=
  ⟨fun _ => le_rfl, fun _ _ => rfl, fun _ => le_rfl⟩

theorem abMaxLoop_km (gs : GameSpec G P) (p : P) (g : G) (r : Nat)
    (IH : ∀ (g : G) (alpha beta : V), alpha < beta →
      KMrel (mmMinValue gs p g r) (abMinValue gs p g alpha beta r) alpha beta) :
    ∀ (l : List Move) (v alpha beta : V), v ≤ alpha → alpha < beta →
      v ≤ abMaxLoop gs p g l v alpha beta r ∧
      KMrel (mmMaxLoop gs p g l v r) (abMaxLoop gs p g l v alpha beta r) alpha beta := by
  intro l
  induction l with
  | nil =>
    intro v alpha beta hva hab
    simp only [abMaxLoop, mmMaxLoop]
    exact ⟨le_rfl, KMrel_refl v alpha beta⟩
  | cons a rest ih =>
    intro v alpha beta hva hab
    set s := mmMinValue gs p (gs.forecastMove g a) r with hs
    set w := abMinValue gs p (gs.forecastMove g a) alpha beta r with hw
    have hKM := IH (gs.forecastMove g a) alpha beta hab
    rw [← hs, ← hw] at hKM
    set K := mmMaxLoop gs p g rest ⊥ r with hK
    have hT : mmMaxLoop gs p g (a :: rest) v r = max (max v s) K := by
      simp only [mmMaxLoop, ← hs]
      exact mmMaxLoop_eq_max gs p g r rest (max v s)
    by_cases hβ : beta ≤ max v w
    · have hRdef : abMaxLoop gs p g (a :: rest) v alpha beta r = max v w := by
        simp only [abMaxLoop, ← hw]
        rw [if_pos hβ]
      rw [hRdef, hT]
      refine ⟨le_max_left _ _, ?_, ?_, ?_⟩
      · intro hcon
        exact absurd (lt_of_lt_of_le hab (le_trans hβ hcon)) (lt_irrefl _)
      · intro _ hcon
        exact absurd (lt_of_le_of_lt hβ hcon) (lt_irrefl _)
      · intro _
        have hwβ : beta ≤ w := by
          rcases le_max_iff.mp hβ with h | h
          · exact absurd (lt_of_le_of_lt (le_trans h hva) hab) (lt_irrefl _)
          · exact h
        have hws : w ≤ s := hKM.2.2 hwβ
        calc max v w ≤ max v s := max_le_max le_rfl hws
          _ ≤ max (max v s) K := le_max_left _ _
    · have hv'β : max v w < beta := lt_of_not_le hβ
      have hRdef : abMaxLoop gs p g (a :: rest) v alpha beta r
          = abMaxLoop gs p g rest (max v w) (max alpha (max v w)) beta r := by
        simp only [abMaxLoop, ← hw]
        rw [if_neg hβ]
      have hwβ : w < beta := lt_of_le_of_lt (le_max_right v w) hv'β
      -- relation between the pruned child value w and the true child value s
      have hsw : s ≤ w := by
        by_cases hwa : w ≤ alpha
        · exact hKM.1 hwa
        · exact le_of_eq (hKM.2.1 (lt_of_not_le hwa) hwβ).symm
      have hwexact : alpha < w → w = s := fun h => hKM.2.1 h hwβ
      obtain ⟨hvR, km1, km2, km3⟩ :=
        ih (max v w) (max alpha (max v w)) beta (le_max_right _ _) (max_lt hab hv'β)
      set R := abMaxLoop gs p g rest (max v w) (max alpha (max v w)) beta r with hR
      have hT' : mmMaxLoop gs p g rest (max v w) r = max (max v w) K :=
        mmMaxLoop_eq_max gs p g r rest (max v w)
      rw [hT'] at km1 km2 km3
      rw [hRdef, hT]
      refine ⟨le_trans (le_max_left v w) hvR, ?_, ?_, ?_⟩
      · -- fail low
        intro hRa
        have hT'R : max (max v w) K ≤ R := km1 (le_trans hRa (le_max_left _ _))
        have : max (max v s) K ≤ max (max v w) K :=
          max_le_max (max_le_max le_rfl hsw) le_rfl
        exact le_trans this hT'R
      · -- exact window
        intro haR hRb
        by_cases hR' : max alpha (max v w) < R
        · have hRT' : R = max (max v w) K := km2 hR' hRb
          by_cases hwa : alpha < w
          · rw [hwexact hwa] at hRT'
            exact hRT'
          · push_neg at hwa
            have hvwa : max v w ≤ alpha := max_le hva hwa
            have hKbig : alpha < max (max v w) K := by rw [← hRT']; exact haR
            have hKval : max (max v w) K = K := by
              by_cases hh : max v w ≤ K
              · exact max_eq_right hh
              · exfalso
                have : max (max v w) K = max v w := max_eq_left (le_of_not_le hh)
                rw [this] at hKbig
                exact absurd (lt_of_lt_of_le hKbig hvwa) (lt_irrefl _)
            have hsa : max v s ≤ alpha := max_le hva (le_trans hsw hwa)
            have hTval : max (max v s) K = K := by
              have : max v s ≤ K := le_trans hsa (le_of_lt (by rw [← hKval]; exact hKbig))
              exact max_eq_right this
            rw [hTval, ← hKval, ← hRT']
        · push_neg at hR'
          have havw : alpha < max v w := by
            by_contra hcon
            push_neg at hcon
            have : max alpha (max v w) = alpha := max_eq_left hcon
            rw [this] at hR'
            exact absurd (lt_of_lt_of_le haR hR') (lt_irrefl _)
          have hRvw : R = max v w := by
            have h1 : max alpha (max v w) = max v w := max_eq_right (le_of_lt havw)
            rw [h1] at hR'
            exact le_antisymm hR' hvR
          have haw : alpha < w := by
            rcases lt_max_iff.mp havw with h | h
            · exact absurd (lt_of_lt_of_le h hva) (lt_irrefl _)
            · exact h
          have hws : w = s := hwexact haw
          have hvw_w : max v w = w := max_eq_right (le_trans hva (le_of_lt haw))
          have hKR : K ≤ R := by
            have := km1 hR'
            exact le_trans (le_max_right _ _) this
          have hvs_s : max v s = s := by
            rw [← hws]
            exact max_eq_right (le_trans hva (le_of_lt haw))
          rw [hvs_s, ← hws, ← hvw_w, ← hRvw]
          exact (max_eq_left hKR).symm
      · -- fail high
        intro hbR
        have hRT' : R ≤ max (max v w) K := km3 hbR
        by_cases hwa : alpha < w
        · rw [hwexact hwa] at hRT'
          exact le_trans hRT' le_rfl
        · push_neg at hwa
          have hvwa : max v w ≤ alpha := max_le hva hwa
          rcases le_max_iff.mp hRT' with h | h
          · exact absurd (lt_of_lt_of_le hab (le_trans hbR (le_trans h hvwa))) (lt_irrefl _)
          · exact le_trans h (le_max_right _ _)

theorem abMinLoop_km (gs : GameSpec G P) (p : P) (g : G) (r : Nat)
    (IH : ∀ (g : G) (alpha beta : V), alpha < beta →
      KMrel (mmMaxValue gs p g r) (abMaxValue gs p g alpha beta r) alpha beta) :
    ∀ (l : List Move) (v alpha beta : V), beta ≤ v → alpha < beta →
      abMinLoop gs p g l v alpha beta r ≤ v ∧
      KMrel (mmMinLoop gs p g l v r) (abMinLoop gs p g l v alpha beta r) alpha beta := by
  intro l
  induction l with
  | nil =>
    intro v alpha beta hbv hab
    simp only [abMinLoop, mmMinLoop]
    exact ⟨le_rfl, KMrel_refl v alpha beta⟩
  | cons a rest ih =>
    intro v alpha beta hbv hab
    set s := mmMaxValue gs p (gs.forecastMove g a) r with hs
    set w := abMaxValue gs p (gs.forecastMove g a) alpha beta r with hw
    have hKM := IH (gs.forecastMove g a) alpha beta hab
    rw [← hs, ← hw] at hKM
    set K := mmMinLoop gs p g rest ⊤ r with hK
    have hT : mmMinLoop gs p g (a :: rest) v r = min (min v s) K := by
      simp only [mmMinLoop, ← hs]
      exact mmMinLoop_eq_min gs p g r rest (min v s)
    by_cases hα : min v w ≤ alpha
    · have hRdef : abMinLoop gs p g (a :: rest) v alpha beta r = min v w := by
        simp only [abMinLoop, ← hw]
        rw [if_pos hα]
      rw [hRdef, hT]
      refine ⟨min_le_left _ _, ?_, ?_, ?_⟩
      · intro _
        have hwα : w ≤ alpha := by
          rcases min_le_iff.mp hα with h | h
          · exact absurd (lt_of_lt_of_le hab (le_trans hbv h)) (lt_irrefl _)
          · exact h
        have hsw : s ≤ w := hKM.1 hwα
        have h1 : min (min v s) K ≤ v := le_trans (min_le_left _ _) (min_le_left _ _)
        have h2 : min (min v s) K ≤ w :=
          le_trans (le_trans (min_le_left _ _) (min_le_right _ _)) hsw
        exact le_min h1 h2
      · intro hcon _
        exact absurd (lt_of_lt_of_le hcon hα) (lt_irrefl _)
      · intro hcon
        exact absurd (lt_of_lt_of_le hab (le_trans hcon hα)) (lt_irrefl _)
    · have hv'α : alpha < min v w := lt_of_not_le hα
      have hRdef : abMinLoop gs p g (a :: rest) v alpha beta r
          = abMinLoop gs p g rest (min v w) alpha (min beta (min v w)) r := by
        simp only [abMinLoop, ← hw]
        rw [if_neg hα]
      have hwα : alpha < w := lt_of_lt_of_le hv'α (min_le_right v w)
      -- relation between the pruned child value w and the true child value s
      have hws : w ≤ s := by
        by_cases hwb : beta ≤ w
        · exact hKM.2.2 hwb
        · exact le_of_eq (hKM.2.1 hwα (lt_of_not_le hwb))
      have hwexact : w < beta → w = s := fun h => hKM.2.1 hwα h
      obtain ⟨hvR, km1, km2, km3⟩ :=
        ih (min v w) alpha (min beta (min v w)) (min_le_right _ _) (lt_min hab hv'α)
      set R := abMinLoop gs p g rest (min v w) alpha (min beta (min v w)) r with hR
      have hT' : mmMinLoop gs p g rest (min v w) r = min (min v w) K :=
        mmMinLoop_eq_min gs p g r rest (min v w)
      rw [hT'] at km1 km2 km3
      rw [hRdef, hT]
      refine ⟨le_trans hvR (min_le_left v w), ?_, ?_, ?_⟩
      · -- fail low
        intro hRa
        have hT'R : min (min v w) K ≤ R := km1 hRa
        have hKR : K ≤ R := by
          rcases min_le_iff.mp hT'R with h | h
          · exact absurd (lt_of_le_of_lt (le_trans h hRa) hv'α) (lt_irrefl _)
          · exact h
        exact le_trans (min_le_right _ _) hKR
      · -- exact window
        intro haR hRb
        by_cases hR' : R < min beta (min v w)
        · have hRT' : R = min (min v w) K := km2 haR hR'
          by_cases hwb : w < beta
          · rw [hwexact hwb] at hRT'
            exact hRT'
          · push_neg at hwb
            have hvwb : beta ≤ min v w := le_min hbv hwb
            have hKsmall : min (min v w) K < beta := by rw [← hRT']; exact hRb
            have hKval : min (min v w) K = K := by
              by_cases hh : K ≤ min v w
              · exact min_eq_right hh
              · exfalso
                have : min (min v w) K = min v w := min_eq_left (le_of_not_le hh)
                rw [this] at hKsmall
                exact absurd (lt_of_le_of_lt hvwb hKsmall) (lt_irrefl _)
            have hsb : beta ≤ min v s := le_min hbv (le_trans hwb hws)
            have hTval : min (min v s) K = K := by
              have : K ≤ min v s :=
                le_trans (le_of_lt (by rw [← hKval]; exact hKsmall)) hsb
              exact min_eq_right this
            rw [hTval, ← hKval, ← hRT']
        · push_neg at hR'
          have hbval : min beta (min v w) = min v w := by
            by_cases hx : min v w ≤ beta
            · exact min_eq_right hx
            · exfalso
              push_neg at hx
              have h1 : min beta (min v w) = beta := min_eq_left (le_of_lt hx)
              rw [h1] at hR'
              exact absurd (lt_of_le_of_lt hR' hRb) (lt_irrefl _)
          have hRvw : R = min v w := by
            rw [hbval] at hR'
            exact le_antisymm hvR hR'
          have hvwR : min v w = w := by
            rcases min_cases v w with h | h
            · exfalso
              have : min v w < v := by
                rw [← hRvw]; exact lt_of_lt_of_le hRb hbv
              rw [h.1] at this
              exact absurd this (lt_irrefl _)
            · exact h.1
          have hRw : R = w := by rw [hRvw, hvwR]
          have hwb : w < beta := by rw [← hRw]; exact hRb
          have hws' : w = s := hwexact hwb
          have hKR : R ≤ K := by
            have h1 : min beta (min v w) ≤ R := by rw [hbval]; exact le_of_eq hRvw.symm
            have := km3 h1
            exact le_trans this (min_le_right _ _)
          have hvs_s : min v s = s := by
            have hwv : w ≤ v := le_trans (le_of_eq hvwR.symm) (min_le_left v w)
            rw [← hws']
            exact min_eq_right hwv
          rw [hvs_s, ← hws', ← hRw]
          exact (min_eq_left hKR).symm
      · -- fail high
        intro hbR
        have hbR' : min beta (min v w) ≤ R := le_trans (min_le_left _ _) hbR
        have hRT' : R ≤ min (min v w) K := km3 hbR'
        have hmono : min (min v w) K ≤ min (min v s) K :=
          min_le_min (min_le_min le_rfl hws) le_rfl
        exact le_trans hRT' hmono

/-- Fail-soft correctness of the alpha-beta walkers against the minimax
walkers: at every node and for every window `alpha < beta`, the
alpha-beta value fail-soft-approximates the exact minimax value. -/
theorem km_node (gs : GameSpec G P) (p : P) :
    ∀ (rem : Nat) (g : G) (alpha beta : V), alpha < beta →
      KMrel (mmMaxValue gs p g rem) (abMaxValue gs p g alpha beta rem) alpha beta ∧
      KMrel (mmMinValue gs p g rem) (abMinValue gs p g alpha beta rem) alpha beta := by
  intro rem
  induction rem with
  | zero =>
    intro g alpha beta hab
    constructor
    · have h1 : mmMaxValue gs p g 0 = gs.scoreFn g p := by
        rw [mmMaxValue]; simp
      have h2 : abMaxValue gs p g alpha beta 0 = gs.scoreFn g p := by
        rw [abMaxValue]; simp
      rw [h1, h2]; exact KMrel_refl _ _ _
    · have h1 : mmMinValue gs p g 0 = gs.scoreFn g p := by
        rw [mmMinValue]; simp
      have h2 : abMinValue gs p g alpha beta 0 = gs.scoreFn g p := by
        rw [abMinValue]; simp
      rw [h1, h2]; exact KMrel_refl _ _ _
  | succ R IH =>
    intro g alpha beta hab
    constructor
    · by_cases hleg : gs.legalMoves g = []
      · have h1 : mmMaxValue gs p g (R + 1) = gs.scoreFn g p := by
          rw [mmMaxValue]; simp [hleg]
        have h2 : abMaxValue gs p g alpha beta (R + 1) = gs.scoreFn g p := by
          rw [abMaxValue]; simp [hleg]
        rw [h1, h2]; exact KMrel_refl _ _ _
      · have h1 : mmMaxValue gs p g (R + 1) = mmMaxLoop gs p g (gs.legalMoves g) ⊥ R := by
          rw [mmMaxValue]; simp [hleg]
        have h2 : abMaxValue gs p g alpha beta (R + 1)
            = abMaxLoop gs p g (gs.legalMoves g) ⊥ alpha beta R := by
          rw [abMaxValue]; simp [hleg]
        rw [h1, h2]
        exact (abMaxLoop_km gs p g R (fun g a b h => (IH g a b h).2)
          (gs.legalMoves g) ⊥ alpha beta bot_le hab).2
    · by_cases hleg : gs.legalMoves g = []
      · have h1 : mmMinValue gs p g (R + 1) = gs.scoreFn g p := by
          rw [mmMinValue]; simp [hleg]
        have h2 : abMinValue gs p g alpha beta (R + 1) = gs.scoreFn g p := by
          rw [abMinValue]; simp [hleg]
        rw [h1, h2]; exact KMrel_refl _ _ _
      · have h1 : mmMinValue gs p g (R + 1) = mmMinLoop gs p g (gs.legalMoves g) ⊤ R := by
          rw [mmMinValue]; simp [hleg]
        have h2 : abMinValue gs p g alpha beta (R + 1)
            = abMinLoop gs p g (gs.legalMoves g) ⊤ alpha beta R := by
          rw [abMinValue]; simp [hleg]
        rw [h1, h2]
        exact (abMinLoop_km gs p g R (fun g a b h => (IH g a b h).1)
          (gs.legalMoves g) ⊤ alpha beta le_top hab).2

end KnuthMoore

section RootLemmas

variable {G P : Type}

theorem mmRootLoop_spec (gs : GameSpec G P) (p : P) (g : G) (r : Nat) :
    ∀ (l : List Move) (best : Move) (bs : V),
      (mmRootLoop gs p g l best bs r).2
        = l.foldl (fun acc a => max acc (mmMinValue gs p (gs.forecastMove g a) r)) bs ∧
      (((mmRootLoop gs p g l best bs r).1 = best ∧ (mmRootLoop gs p g l best bs r).2 = bs) ∨
        ((mmRootLoop gs p g l best bs r).1 ∈ l ∧
          mmMinValue gs p (gs.forecastMove g (mmRootLoop gs p g l best bs r).1) r
            = (mmRootLoop gs p g l best bs r).2 ∧
          bs < (mmRootLoop gs p g l best bs r).2)) := by
  intro l
  induction l with
  | nil =>
    intro best bs
    simp [mmRootLoop]
  | cons a rest ih =>
    intro best bs
    set sc := mmMinValue gs p (gs.forecastMove g a) r with hsc
    by_cases hlt : bs < sc
    · have hunf : mmRootLoop gs p g (a :: rest) best bs r = mmRootLoop gs p g rest a sc r := by
        simp only [mmRootLoop, ← hsc]
        rw [if_pos hlt]
      have hfold : (a :: rest).foldl
            (fun acc a => max acc (mmMinValue gs p (gs.forecastMove g a) r)) bs
          = rest.foldl (fun acc a => max acc (mmMinValue gs p (gs.forecastMove g a) r)) sc := by
        simp only [List.foldl_cons, ← hsc]
        rw [max_eq_right (le_of_lt hlt)]
      obtain ⟨ihf, ihd⟩ := ih a sc
      rw [hunf, hfold]
      refine ⟨ihf, ?_⟩
      rcases ihd with ⟨h1, h2⟩ | ⟨h1, h2, h3⟩
      · right
        refine ⟨by rw [h1]; exact List.mem_cons_self a rest, ?_, ?_⟩
        · rw [h1, ← hsc]
          exact h2.symm
        · rw [h2]
          exact hlt
      · right
        exact ⟨List.mem_cons_of_mem a h1, h2, lt_trans hlt h3⟩
    · have hge : sc ≤ bs := le_of_not_lt hlt
      have hunf : mmRootLoop gs p g (a :: rest) best bs r
          = mmRootLoop gs p g rest best bs r := by
        simp only [mmRootLoop, ← hsc]
        rw [if_neg hlt]
      have hfold : (a :: rest).foldl
            (fun acc a => max acc (mmMinValue gs p (gs.forecastMove g a) r)) bs
          = rest.foldl (fun acc a => max acc (mmMinValue gs p (gs.forecastMove g a) r)) bs := by
        simp only [List.foldl_cons, ← hsc]
        rw [max_eq_left hge]
      obtain ⟨ihf, ihd⟩ := ih best bs
      rw [hunf, hfold]
      refine ⟨ihf, ?_⟩
      rcases ihd with ⟨h1, h2⟩ | ⟨h1, h2, h3⟩
      · exact Or.inl ⟨h1, h2⟩
      · exact Or.inr ⟨List.mem_cons_of_mem a h1, h2, h3⟩

theorem abRootLoop_spec (gs : GameSpec G P) (p : P) (g : G) (r : Nat) :
    ∀ (l : List Move) (best : Move) (alpha : V),
      (abRootLoop gs p g l best alpha ⊤ r = best ∧
        l.foldl (fun acc a => max acc (mmMinValue gs p (gs.forecastMove g a) r)) alpha
          = alpha) ∨
      (abRootLoop gs p g l best alpha ⊤ r ∈ l ∧
        mmMinValue gs p (gs.forecastMove g (abRootLoop gs p g l best alpha ⊤ r)) r
          = l.foldl (fun acc a => max acc (mmMinValue gs p (gs.forecastMove g a) r)) alpha ∧
        alpha
          < l.foldl (fun acc a => max acc (mmMinValue gs p (gs.forecastMove g a) r)) alpha) := by
  intro l
  induction l with
  | nil =>
    intro best alpha
    simp [abRootLoop]
  | cons a rest ih =>
    intro best alpha
    set s := mmMinValue gs p (gs.forecastMove g a) r with hs
    set w := abMinValue gs p (gs.forecastMove g a) alpha ⊤ r with hw
    by_cases hup : alpha < w
    · have hat : alpha < ⊤ := lt_of_lt_of_le hup le_top
      have hkm := (km_node gs p r (gs.forecastMove g a) alpha ⊤ hat).2
      rw [← hs, ← hw] at hkm
      have hws : w = s := by
        by_cases hwt : w = ⊤
        · have h1 : w ≤ s := hkm.2.2 (le_of_eq hwt.symm)
          have h2 : s ≤ w := le_trans le_top (le_of_eq hwt.symm)
          exact le_antisymm h1 h2
        · exact hkm.2.1 hup (lt_top_iff_ne_top.mpr hwt)
      have hunf : abRootLoop gs p g (a :: rest) best alpha ⊤ r
          = abRootLoop gs p g rest a w ⊤ r := by
        simp only [abRootLoop, ← hw]
        rw [if_pos hup]
      have hfold : (a :: rest).foldl
            (fun acc a => max acc (mmMinValue gs p (gs.forecastMove g a) r)) alpha
          = rest.foldl (fun acc a => max acc (mmMinValue gs p (gs.forecastMove g a) r)) w := by
        simp only [List.foldl_cons, ← hs]
        rw [← hws, max_eq_right (le_of_lt hup)]
      rw [hunf, hfold]
      rcases ih a w with ⟨h1, h2⟩ | ⟨h1, h2, h3⟩
      · right
        refine ⟨by rw [h1]; exact List.mem_cons_self a rest, ?_, ?_⟩
        · rw [h1, ← hs, h2]
          exact hws.symm
        · rw [h2]
          exact hup
      · right
        exact ⟨List.mem_cons_of_mem a h1, h2, lt_trans hup h3⟩
    · have hwa : w ≤ alpha := le_of_not_lt hup
      have hsa : s ≤ alpha := by
        by_cases hat : alpha = ⊤
        · rw [hat]; exact le_top
        · have hkm := (km_node gs p r (gs.forecastMove g a) alpha ⊤
            (lt_top_iff_ne_top.mpr hat)).2
          rw [← hs, ← hw] at hkm
          exact le_trans (hkm.1 hwa) hwa
      have hunf : abRootLoop gs p g (a :: rest) best alpha ⊤ r
          = abRootLoop gs p g rest best alpha ⊤ r := by
        simp only [abRootLoop, ← hw]
        rw [if_neg hup]
      have hfold : (a :: rest).foldl
            (fun acc a => max acc (mmMinValue gs p (gs.forecastMove g a) r)) alpha
          = rest.foldl (fun acc a => max acc (mmMinValue gs p (gs.forecastMove g a) r)) alpha := by
        simp only [List.foldl_cons, ← hs]
        rw [max_eq_left hsa]
      rw [hunf, hfold]
      rcases ih best alpha with ⟨h1, h2⟩ | ⟨h1, h2, h3⟩
      · exact Or.inl ⟨h1, h2⟩
      · exact Or.inr ⟨List.mem_cons_of_mem a h1, h2, h3⟩

end RootLemmas

section Optimality

variable {G P : Type}

theorem minimax_returns_optimal (gs : GameSpec G P) (p : P) (sd : Nat) (g : G)
    (depth rIdx : Nat) (h : gs.legalMoves g ≠ []) :
    minimax gs p sd g depth rIdx ∈ gs.legalMoves g ∧
    rootVal gs p sd g (minimax gs p sd g depth rIdx) = bestVal gs p sd g := by
  have hunf : minimax gs p sd g depth rIdx
      = (mmRootLoop gs p g (gs.legalMoves g)
          (pickMove (gs.legalMoves g) rIdx) ⊥ (sd - 1)).1 := by
    simp only [minimax]
    rw [if_neg h]
  obtain ⟨hf, hd⟩ := mmRootLoop_spec gs p g (sd - 1) (gs.legalMoves g)
    (pickMove (gs.legalMoves g) rIdx) ⊥
  have hbv : bestVal gs p sd g
      = (gs.legalMoves g).foldl
          (fun acc a => max acc (mmMinValue gs p (gs.forecastMove g a) (sd - 1))) ⊥ := by
    simp [bestVal, rootVal]
  rcases hd with ⟨h1, h2⟩ | ⟨h1, h2, h3⟩
  · have hinit : pickMove (gs.legalMoves g) rIdx ∈ gs.legalMoves g := pickMove_mem _ _ h
    have hfb : (gs.legalMoves g).foldl
        (fun acc a => max acc (mmMinValue gs p (gs.forecastMove g a) (sd - 1))) ⊥ = ⊥ := by
      rw [← hf, h2]
    constructor
    · rw [hunf, h1]; exact hinit
    · rw [hunf, h1, hbv, hfb]
      have hle := foldl_max_mem_le
        (fun a => mmMinValue gs p (gs.forecastMove g a) (sd - 1))
        (gs.legalMoves g) ⊥ _ hinit
      rw [hfb] at hle
      simpa [rootVal] using le_bot_iff.mp hle
  · constructor
    · rw [hunf]; exact h1
    · rw [hunf, hbv, ← hf]
      simpa [rootVal] using h2

theorem alphabeta_returns_optimal (gs : GameSpec G P) (p : P) (sd : Nat) (g : G)
    (depth rIdx : Nat) (h : gs.legalMoves g ≠ []) :
    alphabeta gs p sd g depth ⊥ ⊤ rIdx ∈ gs.legalMoves g ∧
    rootVal gs p sd g (alphabeta gs p sd g depth ⊥ ⊤ rIdx) = bestVal gs p sd g := by
  have hunf : alphabeta gs p sd g depth ⊥ ⊤ rIdx
      = abRootLoop gs p g (sortMoves (gs.legalMoves g))
          (pickMove (gs.legalMoves g) rIdx) ⊥ ⊤ (sd - 1) := by
    simp only [alphabeta]
    rw [if_neg h]
  have hperm : (sortMoves (gs.legalMoves g)).Perm (gs.legalMoves g) :=
    List.perm_insertionSort moveLe (gs.legalMoves g)
  have hFeq : (sortMoves (gs.legalMoves g)).foldl
        (fun acc a => max acc (mmMinValue gs p (gs.forecastMove g a) (sd - 1))) ⊥
      = (gs.legalMoves g).foldl
        (fun acc a => max acc (mmMinValue gs p (gs.forecastMove g a) (sd - 1))) ⊥ :=
    foldl_max_perm (fun a => mmMinValue gs p (gs.forecastMove g a) (sd - 1)) hperm ⊥
  have hbv : bestVal gs p sd g
      = (gs.legalMoves g).foldl
          (fun acc a => max acc (mmMinValue gs p (gs.forecastMove g a) (sd - 1))) ⊥ := by
    simp [bestVal, rootVal]
  rcases abRootLoop_spec gs p g (sd - 1) (sortMoves (gs.legalMoves g))
      (pickMove (gs.legalMoves g) rIdx) ⊥ with ⟨h1, h2⟩ | ⟨h1, h2, h3⟩
  · have hinit : pickMove (gs.legalMoves g) rIdx ∈ gs.legalMoves g := pickMove_mem _ _ h
    have hfb : (gs.legalMoves g).foldl
        (fun acc a => max acc (mmMinValue gs p (gs.forecastMove g a) (sd - 1))) ⊥ = ⊥ := by
      rw [← hFeq, h2]
    constructor
    · rw [hunf, h1]; exact hinit
    · rw [hunf, h1, hbv, hfb]
      have hle := foldl_max_mem_le
        (fun a => mmMinValue gs p (gs.forecastMove g a) (sd - 1))
        (gs.legalMoves g) ⊥ _ hinit
      rw [hfb] at hle
      simpa [rootVal] using le_bot_iff.mp hle
  · constructor
    · rw [hunf]; exact hperm.mem_iff.mp h1
    · rw [hunf, hbv, ← hFeq]
      simpa [rootVal] using h2

end Optimality

/-- Claim C1: For every board, target depth and seed on which neither search
times out, the move returned by `AlphaBetaPlayer.alphabeta` (with the default
window) equals the move returned by `MinimaxPlayer.minimax` over the
identical game tree with the same scorer, modulo tie-break order among
equally-valued root moves: both returned moves are legal and carry the same
(maximal) full-enumeration root value. -/
theorem claim1_alphabeta_equals_minimax_mod_ties {G P : Type} (gs : GameSpec G P)
    (p : P) (sd : Nat) (g : G) (d₁ d₂ rIdx : Nat) (h : gs.legalMoves g ≠ []) :
    minimax gs p sd g d₁ rIdx ∈ gs.legalMoves g ∧
    alphabeta gs p sd g d₂ ⊥ ⊤ rIdx ∈ gs.legalMoves g ∧
    rootVal gs p sd g (minimax gs p sd g d₁ rIdx)
      = rootVal gs p sd g (alphabeta gs p sd g d₂ ⊥ ⊤ rIdx) ∧
    rootVal gs p sd g (minimax gs p sd g d₁ rIdx) = bestVal gs p sd g := by
  obtain ⟨hm1, hm2⟩ := minimax_returns_optimal gs p sd g d₁ rIdx h
  obtain ⟨ha1, ha2⟩ := alphabeta_returns_optimal gs p sd g d₂ rIdx h
  exact ⟨hm1, ha1, by rw [hm2, ha2], hm2⟩

theorem claim1_witness :
    gsA.legalMoves 0 ≠ [] ∧
    (minimax gsA true 2 0 2 0 ∈ gsA.legalMoves 0 ∧
      alphabeta gsA true 2 0 2 ⊥ ⊤ 0 ∈ gsA.legalMoves 0 ∧
      rootVal gsA true 2 0 (minimax gsA true 2 0 2 0)
        = rootVal gsA true 2 0 (alphabeta gsA true 2 0 2 ⊥ ⊤ 0) ∧
      rootVal gsA true 2 0 (minimax gsA true 2 0 2 0) = bestVal gsA true 2 0) :=
  ⟨by decide,
    claim1_alphabeta_equals_minimax_mod_ties gsA true 2 0 2 2 0 (by decide)⟩

/-- Claim C2, counterexample: The claim says `minimax` searches to exactly the
depth given by its `depth` argument.  In the code the argument is ignored:
the terminal test reads `self.search_depth`.  With `search_depth = 2` and
depth argument `1`, `minimax` returns `(2, 0)`, whose value under full
enumeration to depth 1 (`Vf 3`) is strictly below that of the legal move
`(1, 0)` (`Vf 5`), so the returned move does not maximize the depth-1
value. -/
theorem claim2_counterexample :
    minimax gsA true 2 0 1 0 = (2, 0) ∧
    (1, 0) ∈ gsA.legalMoves 0 ∧
    mmMinValue gsA true (gsA.forecastMove 0 (2, 0)) 0
      < mmMinValue gsA true (gsA.forecastMove 0 (1, 0)) 0 := by
  refine ⟨?_, by decide, ?_⟩
  · simp [minimax, mmRootLoop, mmMinValue, mmMinLoop, mmMaxValue, mmMaxLoop,
      gsA, pickMove, Vf] <;> decide
  · simp [mmMinValue, gsA, Vf] <;> decide

/-- Claim C2, amended: Absent timeout, `MinimaxPlayer.minimax` returns a legal
move maximizing the searching player's value under full enumeration to the
depth given by the agent's `search_depth` field; the `depth` argument is
ignored (the result is the same for every value of it), so the contract as
stated holds exactly when the `depth` argument equals `search_depth`. -/
theorem claim2_amended_minimax_optimal_for_search_depth {G P : Type}
    (gs : GameSpec G P) (p : P) (sd : Nat) (g : G) (depth rIdx : Nat)
    (h : gs.legalMoves g ≠ []) :
    minimax gs p sd g depth rIdx ∈ gs.legalMoves g ∧
    rootVal gs p sd g (minimax gs p sd g depth rIdx) = bestVal gs p sd g ∧
    (∀ d₁ d₂ : Nat, minimax gs p sd g d₁ rIdx = minimax gs p sd g d₂ rIdx) := by
  obtain ⟨hm1, hm2⟩ := minimax_returns_optimal gs p sd g depth rIdx h
  exact ⟨hm1, hm2, fun _ _ => rfl⟩

theorem claim2_witness :
    gsA.legalMoves 0 ≠ [] ∧
    (minimax gsA true 2 0 2 0 ∈ gsA.legalMoves 0 ∧
      rootVal gsA true 2 0 (minimax gsA true 2 0 2 0) = bestVal gsA true 2 0 ∧
      (∀ d₁ d₂ : Nat, minimax gsA true 2 0 d₁ 0 = minimax gsA true 2 0 d₂ 0)) :=
  ⟨by decide,
    claim2_amended_minimax_optimal_for_search_depth gsA true 2 0 2 0 (by decide)⟩

/-! ### Instrumented (event-logging) pure search.

The same timeout-free walkers, additionally returning the chronological list
of observable events: each `_terminal_test` invocation with the ply-depth it
observes, each `self.score(game, self)` evaluation with its subject and the
node's ply-depth, and each move taken by a `for` loop with the visiting
node's ply-depth (the root has ply-depth 0). -/

inductive Ev (G : Type) (P : Type) where
  | ttObs (depth : Nat) : Ev G P
  | eval (g : G) (subject : P) (depth : Nat) : Ev G P
  | visit (depth : Nat) (m : Move) : Ev G P
  deriving DecidableEq

section Instrumented

variable {G P : Type}

mutual
/-- `MinimaxPlayer._min_value`, instrumented. -/
def mmMinValueI (gs : GameSpec G P) (p : P) (g : G) (depth rem : Nat) :
    V × List (Ev G P) :=
  if h : rem = 0 ∨ gs.legalMoves g = [] then
    (gs.scoreFn g p, [Ev.ttObs depth, Ev.eval g p depth])
  else
    let t := mmMinLoopI gs p g (gs.legalMoves g) ⊤ depth (rem - 1)
    (t.1, Ev.ttObs depth :: t.2)
termination_by (rem, 0, 0)

/-- The loop of `MinimaxPlayer._min_value`, instrumented. -/
def mmMinLoopI (gs : GameSpec G P) (p : P) (g : G) (l : List Move) (v : V)
    (depth r : Nat) : V × List (Ev G P) :=
  match l with
  | [] => (v, [])
  | a :: rest =>
    let t := mmMaxValueI gs p (gs.forecastMove g a) (depth + 1) r
    let t₂ := mmMinLoopI gs p g rest (min v t.1) depth r
    (t₂.1, Ev.visit depth a :: t.2 ++ t₂.2)
termination_by (r, 1, l.length)

/-- `MinimaxPlayer._max_value`, instrumented. -/
def mmMaxValueI (gs : GameSpec G P) (p : P) (g : G) (depth rem : Nat) :
    V × List (Ev G P) :=
  if h : rem = 0 ∨ gs.legalMoves g = [] then
    (gs.scoreFn g p, [Ev.ttObs depth, Ev.eval g p depth])
  else
    let t := mmMaxLoopI gs p g (gs.legalMoves g) ⊥ depth (rem - 1)
    (t.1, Ev.ttObs depth :: t.2)
termination_by (rem, 0, 0)

/-- The loop of `MinimaxPlayer._max_value`, instrumented. -/
def mmMaxLoopI (gs : GameSpec G P) (p : P) (g : G) (l : List Move) (v : V)
    (depth r : Nat) : V × List (Ev G P) :=
  match l with
  | [] => (v, [])
  | a :: rest =>
    let t := mmMinValueI gs p (gs.forecastMove g a) (depth + 1) r
    let t₂ := mmMaxLoopI gs p g rest (max v t.1) depth r
    (t₂.1, Ev.visit depth a :: t.2 ++ t₂.2)
termination_by (r, 1, l.length)
end

/-- The root loop of `MinimaxPlayer.minimax`, instrumented. -/
def mmRootLoopI (gs : GameSpec G P) (p : P) (g : G) (l : List Move)
    (best : Move) (bs : V) (r : Nat) : (Move × V) × List (Ev G P) :=
  match l with
  | [] => ((best, bs), [])
  | a :: rest =>
    let t := mmMinValueI gs p (gs.forecastMove g a) 1 r
    if bs < t.1 then
      let t₂ := mmRootLoopI gs p g rest a t.1 r
      (t₂.1, Ev.visit 0 a :: t.2 ++ t₂.2)
    else
      let t₂ := mmRootLoopI gs p g rest best bs r
      (t₂.1, Ev.visit 0 a :: t.2 ++ t₂.2)

/-- `MinimaxPlayer.minimax`, instrumented. -/
def minimaxI (gs : GameSpec G P) (p : P) (sd : Nat) (g : G) (depth rIdx : Nat) :
    Move × List (Ev G P) :=
  let actions := gs.legalMoves g
  if actions = [] then ((-1, -1), [])
  else
    let t := mmRootLoopI gs p g actions (pickMove actions rIdx) ⊥ (sd - 1)
    (t.1.1, t.2)

mutual
/-- `AlphaBetaPlayer._max_value`, instrumented. -/
def abMaxValueI (gs : GameSpec G P) (p : P) (g : G) (alpha beta : V)
    (depth rem : Nat) : V × List (Ev G P) :=
  if h : rem = 0 ∨ gs.legalMoves g = [] then
    (gs.scoreFn g p, [Ev.ttObs depth, Ev.eval g p depth])
  else
    let t := abMaxLoopI gs p g (gs.legalMoves g) ⊥ alpha beta depth (rem - 1)
    (t.1, Ev.ttObs depth :: t.2)
termination_by (rem, 0, 0)

/-- The pruning loop of `AlphaBetaPlayer._max_value`, instrumented. -/
def abMaxLoopI (gs : GameSpec G P) (p : P) (g : G) (l : List Move)
    (v alpha beta : V) (depth r : Nat) : V × List (Ev G P) :=
  match l with
  | [] => (v, [])
  | a :: rest =>
    let t := abMinValueI gs p (gs.forecastMove g a) alpha beta (depth + 1) r
    let v' := max v t.1
    if beta ≤ v' then (v', Ev.visit depth a :: t.2)
    else
      let t₂ := abMaxLoopI gs p g rest v' (max alpha v') beta depth r
      (t₂.1, Ev.visit depth a :: t.2 ++ t₂.2)
termination_by (r, 1, l.length)

/-- `AlphaBetaPlayer._min_value`, instrumented. -/
def abMinValueI (gs : GameSpec G P) (p : P) (g : G) (alpha beta : V)
    (depth rem : Nat) : V × List (Ev G P) :=
  if h : rem = 0 ∨ gs.legalMoves g = [] then
    (gs.scoreFn g p, [Ev.ttObs depth, Ev.eval g p depth])
  else
    let t := abMinLoopI gs p g (gs.legalMoves g) ⊤ alpha beta depth (rem - 1)
    (t.1, Ev.ttObs depth :: t.2)
termination_by (rem, 0, 0)

/-- The pruning loop of `AlphaBetaPlayer._min_value`, instrumented. -/
def abMinLoopI (gs : GameSpec G P) (p : P) (g : G) (l : List Move)
    (v alpha beta : V) (depth r : Nat) : V × List (Ev G P) :=
  match l with
  | [] => (v, [])
  | a :: rest =>
    let t := abMaxValueI gs p (gs.forecastMove g a) alpha beta (depth + 1) r
    let v' := min v t.1
    if v' ≤ alpha then (v', Ev.visit depth a :: t.2)
    else
      let t₂ := abMinLoopI gs p g rest v' alpha (min beta v') depth r
      (t₂.1, Ev.visit depth a :: t.2 ++ t₂.2)
termination_by (r, 1, l.length)
end

/-- The root loop of `AlphaBetaPlayer.alphabeta`, instrumented. -/
def abRootLoopI (gs : GameSpec G P) (p : P) (g : G) (l : List Move)
    (best : Move) (alpha beta : V) (r : Nat) : Move × List (Ev G P) :=
  match l with
  | [] => (best, [])
  | a :: rest =>
    let t := abMinValueI gs p (gs.forecastMove g a) alpha beta 1 r
    if alpha < t.1 then
      let t₂ := abRootLoopI gs p g rest a t.1 beta r
      (t₂.1, Ev.visit 0 a :: t.2 ++ t₂.2)
    else
      let t₂ := abRootLoopI gs p g rest best alpha beta r
      (t₂.1, Ev.visit 0 a :: t.2 ++ t₂.2)

/-- `AlphaBetaPlayer.alphabeta`, instrumented. -/
def alphabetaI (gs : GameSpec G P) (p : P) (sd : Nat) (g : G) (depth : Nat)
    (alpha beta : V) (rIdx : Nat) : Move × List (Ev G P) :=
  let actions := gs.legalMoves g
  if actions = [] then ((-1, -1), [])
  else abRootLoopI gs p g (sortMoves actions) (pickMove actions rIdx) alpha beta (sd - 1)

/-- The moves visited at ply-depth `d`, in chronological order. -/
def visitsAt (es : List (Ev G P)) (d : Nat) : List Move :=
  es.filterMap fun e =>
    match e with
    | Ev.visit d' m => if d' = d then some m else none
    | _ => none

/-- Well-formedness of an event emitted in the subtree rooted at a node with
ply-depth `depth` and `rem` remaining plies: terminal tests and evaluations
observe a ply-depth between `depth` and `depth + rem`, evaluations name the
root player `p` as subject, and loop visits occur at ply-depth at least
`depth`. -/
def EvOk (p : P) (depth rem : Nat) : Ev G P → Prop
  | Ev.ttObs d => depth ≤ d ∧ d ≤ depth + rem
  | Ev.eval _ q d => q = p ∧ depth ≤ d ∧ d ≤ depth + rem
  | Ev.visit d _ => depth ≤ d

theorem EvOk_weaken {p : P} {depth r : Nat} :
    ∀ e : Ev G P, EvOk p (depth + 1) r e → EvOk p depth (r + 1) e := by
  intro e he
  cases e with
  | ttObs d => simp only [EvOk] at he ⊢; omega
  | eval g q d =>
    simp only [EvOk] at he ⊢
    exact ⟨he.1, by omega, by omega⟩
  | visit d m => simp only [EvOk] at he ⊢; omega

end Instrumented

section InstrumentedLemmas

variable {G P : Type}

theorem mmMinLoopI_evOk (gs : GameSpec G P) (p : P) (g : G) (r : Nat)
    (IHmax : ∀ (g : G) (depth : Nat) (e : Ev G P),
      e ∈ (mmMaxValueI gs p g depth r).2 → EvOk p depth r e) :
    ∀ (l : List Move) (v : V) (depth : Nat) (e : Ev G P),
      e ∈ (mmMinLoopI gs p g l v depth r).2 →
      (∃ m, e = Ev.visit depth m ∧ m ∈ l) ∨ EvOk p (depth + 1) r e := by
  intro l
  induction l with
  | nil => intro v depth e he; simp [mmMinLoopI] at he
  | cons a rest ih =>
    intro v depth e he
    simp only [mmMinLoopI, List.mem_cons, List.mem_append] at he
    rcases he with (he | he) | he
    · exact Or.inl ⟨a, he, List.mem_cons_self a rest⟩
    · exact Or.inr (IHmax _ (depth + 1) e he)
    · rcases ih _ depth e he with ⟨m, hm, hmem⟩ | hok
      · exact Or.inl ⟨m, hm, List.mem_cons_of_mem a hmem⟩
      · exact Or.inr hok

theorem mmMaxLoopI_evOk (gs : GameSpec G P) (p : P) (g : G) (r : Nat)
    (IHmin : ∀ (g : G) (depth : Nat) (e : Ev G P),
      e ∈ (mmMinValueI gs p g depth r).2 → EvOk p depth r e) :
    ∀ (l : List Move) (v : V) (depth : Nat) (e : Ev G P),
      e ∈ (mmMaxLoopI gs p g l v depth r).2 →
      (∃ m, e = Ev.visit depth m ∧ m ∈ l) ∨ EvOk p (depth + 1) r e := by
  intro l
  induction l with
  | nil => intro v depth e he; simp [mmMaxLoopI] at he
  | cons a rest ih =>
    intro v depth e he
    simp only [mmMaxLoopI, List.mem_cons, List.mem_append] at he
    rcases he with (he | he) | he
    · exact Or.inl ⟨a, he, List.mem_cons_self a rest⟩
    · exact Or.inr (IHmin _ (depth + 1) e he)
    · rcases ih _ depth e he with ⟨m, hm, hmem⟩ | hok
      · exact Or.inl ⟨m, hm, List.mem_cons_of_mem a hmem⟩
      · exact Or.inr hok

theorem mmValueI_evOk (gs : GameSpec G P) (p : P) :
    ∀ (rem : Nat) (g : G) (depth : Nat) (e : Ev G P),
      (e ∈ (mmMinValueI gs p g depth rem).2 → EvOk p depth rem e) ∧
      (e ∈ (mmMaxValueI gs p g depth rem).2 → EvOk p depth rem e) := by
  have hterm : ∀ (g : G) (depth rem : Nat) (e : Ev G P),
      e ∈ [Ev.ttObs (G := G) (P := P) depth, Ev.eval g p depth] → EvOk p depth rem e := by
    intro g depth rem e he
    rcases List.mem_cons.mp he with he | he
    · subst he; exact ⟨le_rfl, by omega⟩
    · rcases List.mem_cons.mp he with he | he
      · subst he; exact ⟨rfl, le_rfl, by omega⟩
      · cases he
  intro rem
  induction rem with
  | zero =>
    intro g depth e
    constructor
    · intro he
      rw [mmMinValueI] at he
      simp only [true_or, dif_pos] at he
      exact hterm g depth 0 e he
    · intro he
      rw [mmMaxValueI] at he
      simp only [true_or, dif_pos] at he
      exact hterm g depth 0 e he
  | succ R IH =>
    intro g depth e
    constructor
    · intro he
      by_cases hleg : gs.legalMoves g = []
      · rw [mmMinValueI] at he
        simp only [hleg, or_true, dif_pos] at he
        exact hterm g depth (R + 1) e he
      · rw [mmMinValueI] at he
        rw [dif_neg (by simp [hleg])] at he
        simp only [List.mem_cons] at he
        rcases he with he | he
        · subst he; exact ⟨le_rfl, by omega⟩
        · have := mmMinLoopI_evOk gs p g R
            (fun g d e he => (IH g d e).2 he) (gs.legalMoves g) ⊤ depth e
          simp only [Nat.add_sub_cancel] at he
          rcases this he with ⟨m, hm, _⟩ | hok
          · subst hm; exact le_rfl
          · exact EvOk_weaken e hok
    · intro he
      by_cases hleg : gs.legalMoves g = []
      · rw [mmMaxValueI] at he
        simp only [hleg, or_true, dif_pos] at he
        exact hterm g depth (R + 1) e he
      · rw [mmMaxValueI] at he
        rw [dif_neg (by simp [hleg])] at he
        simp only [List.mem_cons] at he
        rcases he with he | he
        · subst he; exact ⟨le_rfl, by omega⟩
        · have := mmMaxLoopI_evOk gs p g R
            (fun g d e he => (IH g d e).1 he) (gs.legalMoves g) ⊥ depth e
          simp only [Nat.add_sub_cancel] at he
          rcases this he with ⟨m, hm, _⟩ | hok
          · subst hm; exact le_rfl
          · exact EvOk_weaken e hok

theorem abMaxLoopI_evOk (gs : GameSpec G P) (p : P) (g : G) (r : Nat)
    (IHmin : ∀ (g : G) (alpha beta : V) (depth : Nat) (e : Ev G P),
      e ∈ (abMinValueI gs p g alpha beta depth r).2 → EvOk p depth r e) :
    ∀ (l : List Move) (v alpha beta : V) (depth : Nat) (e : Ev G P),
      e ∈ (abMaxLoopI gs p g l v alpha beta depth r).2 →
      (∃ m, e = Ev.visit depth m) ∨ EvOk p (depth + 1) r e := by
  intro l
  induction l with
  | nil => intro v alpha beta depth e he; simp [abMaxLoopI] at he
  | cons a rest ih =>
    intro v alpha beta depth e he
    by_cases hb : beta ≤ max v (abMinValueI gs p (gs.forecastMove g a) alpha beta (depth + 1) r).1
    · have hev : (abMaxLoopI gs p g (a :: rest) v alpha beta depth r).2
          = Ev.visit depth a
              :: (abMinValueI gs p (gs.forecastMove g a) alpha beta (depth + 1) r).2 := by
        simp only [abMaxLoopI]
        rw [if_pos hb]
      rw [hev] at he
      rcases List.mem_cons.mp he with he | he
      · exact Or.inl ⟨a, he⟩
      · exact Or.inr (IHmin _ alpha beta (depth + 1) e he)
    · have hev : (abMaxLoopI gs p g (a :: rest) v alpha beta depth r).2
          = (Ev.visit depth a
              :: (abMinValueI gs p (gs.forecastMove g a) alpha beta (depth + 1) r).2)
            ++ (abMaxLoopI gs p g rest
                (max v (abMinValueI gs p (gs.forecastMove g a) alpha beta (depth + 1) r).1)
                (max alpha
                  (max v (abMinValueI gs p (gs.forecastMove g a) alpha beta (depth + 1) r).1))
                beta depth r).2 := by
        simp only [abMaxLoopI]
        rw [if_neg hb]
      rw [hev] at he
      rcases List.mem_append.mp he with he | he
      · rcases List.mem_cons.mp he with he | he
        · exact Or.inl ⟨a, he⟩
        · exact Or.inr (IHmin _ alpha beta (depth + 1) e he)
      · exact ih _ _ _ depth e he

theorem abMinLoopI_evOk (gs : GameSpec G P) (p : P) (g : G) (r : Nat)
    (IHmax : ∀ (g : G) (alpha beta : V) (depth : Nat) (e : Ev G P),
      e ∈ (abMaxValueI gs p g alpha beta depth r).2 → EvOk p depth r e) :
    ∀ (l : List Move) (v alpha beta : V) (depth : Nat) (e : Ev G P),
      e ∈ (abMinLoopI gs p g l v alpha beta depth r).2 →
      (∃ m, e = Ev.visit depth m) ∨ EvOk p (depth + 1) r e := by
  intro l
  induction l with
  | nil => intro v alpha beta depth e he; simp [abMinLoopI] at he
  | cons a rest ih =>
    intro v alpha beta depth e he
    by_cases hb : min v (abMaxValueI gs p (gs.forecastMove g a) alpha beta (depth + 1) r).1 ≤ alpha
    · have hev : (abMinLoopI gs p g (a :: rest) v alpha beta depth r).2
          = Ev.visit depth a
              :: (abMaxValueI gs p (gs.forecastMove g a) alpha beta (depth + 1) r).2 := by
        simp only [abMinLoopI]
        rw [if_pos hb]
      rw [hev] at he
      rcases List.mem_cons.mp he with he | he
      · exact Or.inl ⟨a, he⟩
      · exact Or.inr (IHmax _ alpha beta (depth + 1) e he)
    · have hev : (abMinLoopI gs p g (a :: rest) v alpha beta depth r).2
          = (Ev.visit depth a
              :: (abMaxValueI gs p (gs.forecastMove g a) alpha beta (depth + 1) r).2)
            ++ (abMinLoopI gs p g rest
                (min v (abMaxValueI gs p (gs.forecastMove g a) alpha beta (depth + 1) r).1)
                alpha
                (min beta
                  (min v (abMaxValueI gs p (gs.forecastMove g a) alpha beta (depth + 1) r).1))
                depth r).2 := by
        simp only [abMinLoopI]
        rw [if_neg hb]
      rw [hev] at he
      rcases List.mem_append.mp he with he | he
      · rcases List.mem_cons.mp he with he | he
        · exact Or.inl ⟨a, he⟩
        · exact Or.inr (IHmax _ alpha beta (depth + 1) e he)
      · exact ih _ _ _ depth e he

theorem abValueI_evOk (gs : GameSpec G P) (p : P) :
    ∀ (rem : Nat) (g : G) (alpha beta : V) (depth : Nat) (e : Ev G P),
      (e ∈ (abMinValueI gs p g alpha beta depth rem).2 → EvOk p depth rem e) ∧
      (e ∈ (abMaxValueI gs p g alpha beta depth rem).2 → EvOk p depth rem e) := by
  have hterm : ∀ (g : G) (depth rem : Nat) (e : Ev G P),
      e ∈ [Ev.ttObs (G := G) (P := P) depth, Ev.eval g p depth] → EvOk p depth rem e := by
    intro g depth rem e he
    rcases List.mem_cons.mp he with he | he
    · subst he; exact ⟨le_rfl, by omega⟩
    · rcases List.mem_cons.mp he with he | he
      · subst he; exact ⟨rfl, le_rfl, by omega⟩
      · cases he
  intro rem
  induction rem with
  | zero =>
    intro g alpha beta depth e
    constructor
    · intro he
      rw [abMinValueI] at he
      simp only [true_or, dif_pos] at he
      exact hterm g depth 0 e he
    · intro he
      rw [abMaxValueI] at he
      simp only [true_or, dif_pos] at he
      exact hterm g depth 0 e he
  | succ R IH =>
    intro g alpha beta depth e
    constructor
    · intro he
      by_cases hleg : gs.legalMoves g = []
      · rw [abMinValueI] at he
        simp only [hleg, or_true, dif_pos] at he
        exact hterm g depth (R + 1) e he
      · rw [abMinValueI] at he
        rw [dif_neg (by simp [hleg])] at he
        simp only [List.mem_cons] at he
        rcases he with he | he
        · subst he; exact ⟨le_rfl, by omega⟩
        · have := abMinLoopI_evOk gs p g R
            (fun g a b d e he => (IH g a b d e).2 he) (gs.legalMoves g) ⊤ alpha beta depth e
          simp only [Nat.add_sub_cancel] at he
          rcases this he with ⟨m, hm⟩ | hok
          · subst hm; exact le_rfl
          · exact EvOk_weaken e hok
    · intro he
      by_cases hleg : gs.legalMoves g = []
      · rw [abMaxValueI] at he
        simp only [hleg, or_true, dif_pos] at he
        exact hterm g depth (R + 1) e he
      · rw [abMaxValueI] at he
        rw [dif_neg (by simp [hleg])] at he
        simp only [List.mem_cons] at he
        rcases he with he | he
        · subst he; exact ⟨le_rfl, by omega⟩
        · have := abMaxLoopI_evOk gs p g R
            (fun g a b d e he => (IH g a b d e).1 he) (gs.legalMoves g) ⊥ alpha beta depth e
          simp only [Nat.add_sub_cancel] at he
          rcases this he with ⟨m, hm⟩ | hok
          · subst hm; exact le_rfl
          · exact EvOk_weaken e hok

theorem mmRootLoopI_evOk (gs : GameSpec G P) (p : P) (g : G) (r : Nat) :
    ∀ (l : List Move) (best : Move) (bs : V) (e : Ev G P),
      e ∈ (mmRootLoopI gs p g l best bs r).2 →
      (∃ m, e = Ev.visit 0 m) ∨ EvOk p 1 r e := by
  intro l
  induction l with
  | nil => intro best bs e he; simp [mmRootLoopI] at he
  | cons a rest ih =>
    intro best bs e he
    by_cases hlt : bs < (mmMinValueI gs p (gs.forecastMove g a) 1 r).1
    · have hev : (mmRootLoopI gs p g (a :: rest) best bs r).2
          = (Ev.visit 0 a :: (mmMinValueI gs p (gs.forecastMove g a) 1 r).2)
            ++ (mmRootLoopI gs p g rest a (mmMinValueI gs p (gs.forecastMove g a) 1 r).1 r).2 := by
        simp only [mmRootLoopI]
        rw [if_pos hlt]
      rw [hev] at he
      rcases List.mem_append.mp he with he | he
      · rcases List.mem_cons.mp he with he | he
        · exact Or.inl ⟨a, he⟩
        · exact Or.inr ((mmValueI_evOk gs p r _ 1 e).1 he)
      · exact ih _ _ e he
    · have hev : (mmRootLoopI gs p g (a :: rest) best bs r).2
          = (Ev.visit 0 a :: (mmMinValueI gs p (gs.forecastMove g a) 1 r).2)
            ++ (mmRootLoopI gs p g rest best bs r).2 := by
        simp only [mmRootLoopI]
        rw [if_neg hlt]
      rw [hev] at he
      rcases List.mem_append.mp he with he | he
      · rcases List.mem_cons.mp he with he | he
        · exact Or.inl ⟨a, he⟩
        · exact Or.inr ((mmValueI_evOk gs p r _ 1 e).1 he)
      · exact ih _ _ e he

theorem abRootLoopI_evOk (gs : GameSpec G P) (p : P) (g : G) (r : Nat) :
    ∀ (l : List Move) (best : Move) (alpha beta : V) (e : Ev G P),
      e ∈ (abRootLoopI gs p g l best alpha beta r).2 →
      (∃ m, e = Ev.visit 0 m) ∨ EvOk p 1 r e := by
  intro l
  induction l with
  | nil => intro best alpha beta e he; simp [abRootLoopI] at he
  | cons a rest ih =>
    intro best alpha beta e he
    by_cases hlt : alpha < (abMinValueI gs p (gs.forecastMove g a) alpha beta 1 r).1
    · have hev : (abRootLoopI gs p g (a :: rest) best alpha beta r).2
          = (Ev.visit 0 a :: (abMinValueI gs p (gs.forecastMove g a) alpha beta 1 r).2)
            ++ (abRootLoopI gs p g rest a
                (abMinValueI gs p (gs.forecastMove g a) alpha beta 1 r).1 beta r).2 := by
        simp only [abRootLoopI]
        rw [if_pos hlt]
      rw [hev] at he
      rcases List.mem_append.mp he with he | he
      · rcases List.mem_cons.mp he with he | he
        · exact Or.inl ⟨a, he⟩
        · exact Or.inr ((abValueI_evOk gs p r _ alpha beta 1 e).1 he)
      · exact ih _ _ _ e he
    · have hev : (abRootLoopI gs p g (a :: rest) best alpha beta r).2
          = (Ev.visit 0 a :: (abMinValueI gs p (gs.forecastMove g a) alpha beta 1 r).2)
            ++ (abRootLoopI gs p g rest best alpha beta r).2 := by
        simp only [abRootLoopI]
        rw [if_neg hlt]
      rw [hev] at he
      rcases List.mem_append.mp he with he | he
      · rcases List.mem_cons.mp he with he | he
        · exact Or.inl ⟨a, he⟩
        · exact Or.inr ((abValueI_evOk gs p r _ alpha beta 1 e).1 he)
      · exact ih _ _ _ e he

theorem minimaxI_evOk (gs : GameSpec G P) (p : P) (sd : Nat) (g : G)
    (depth rIdx : Nat) (e : Ev G P) (he : e ∈ (minimaxI gs p sd g depth rIdx).2) :
    (∃ m, e = Ev.visit 0 m) ∨ EvOk p 1 (sd - 1) e := by
  by_cases h : gs.legalMoves g = []
  · rw [minimaxI] at he
    simp only [h, if_pos] at he
    cases he
  · rw [minimaxI] at he
    rw [if_neg h] at he
    exact mmRootLoopI_evOk gs p g (sd - 1) (gs.legalMoves g)
      (pickMove (gs.legalMoves g) rIdx) ⊥ e he

theorem alphabetaI_evOk (gs : GameSpec G P) (p : P) (sd : Nat) (g : G)
    (depth : Nat) (alpha beta : V) (rIdx : Nat) (e : Ev G P)
    (he : e ∈ (alphabetaI gs p sd g depth alpha beta rIdx).2) :
    (∃ m, e = Ev.visit 0 m) ∨ EvOk p 1 (sd - 1) e := by
  by_cases h : gs.legalMoves g = []
  · rw [alphabetaI] at he
    simp only [h, if_pos] at he
    cases he
  · rw [alphabetaI] at he
    rw [if_neg h] at he
    exact abRootLoopI_evOk gs p g (sd - 1) (sortMoves (gs.legalMoves g))
      (pickMove (gs.legalMoves g) rIdx) alpha beta e he

end InstrumentedLemmas

/-- Claim C5: In both minimax and alpha-beta search, every terminal-node
evaluation calls the scorer with the root searching player `p` as the
subject (never switching to the perspective of the side to move at the
node), at every recursion depth in both MIN and MAX layers. -/
theorem claim5_eval_subject_is_root_player {G P : Type} (gs : GameSpec G P)
    (p : P) (sd : Nat) (g : G) (d₁ d₂ : Nat) (alpha beta : V) (rIdx₁ rIdx₂ : Nat) :
    (∀ (g' : G) (q : P) (d : Nat),
      Ev.eval g' q d ∈ (minimaxI gs p sd g d₁ rIdx₁).2 → q = p) ∧
    (∀ (g' : G) (q : P) (d : Nat),
      Ev.eval g' q d ∈ (alphabetaI gs p sd g d₂ alpha beta rIdx₂).2 → q = p) := by
  constructor
  · intro g' q d he
    rcases minimaxI_evOk gs p sd g d₁ rIdx₁ _ he with ⟨m, hm⟩ | hok
    · cases hm
    · exact hok.1
  · intro g' q d he
    rcases alphabetaI_evOk gs p sd g d₂ alpha beta rIdx₂ _ he with ⟨m, hm⟩ | hok
    · cases hm
    · exact hok.1

theorem claim5_witness :
    (Ev.eval 3 true 2 ∈ (minimaxI gsA true 2 0 2 0).2) ∧ true = true :=
  ⟨by simp [minimaxI, mmRootLoopI, mmMinValueI, mmMinLoopI, mmMaxValueI, mmMaxLoopI,
      gsA, pickMove, Vf] <;> decide,
    (claim5_eval_subject_is_root_player gsA true 2 0 2 2 ⊥ ⊤ 0 0).1 3 true 2
      (by simp [minimaxI, mmRootLoopI, mmMinValueI, mmMinLoopI, mmMaxValueI, mmMaxLoopI,
        gsA, pickMove, Vf] <;> decide)⟩

/-- Claim C6: For every search with target depth `sd ≥ 1`, the ply-depth
argument passed to the terminal test starts at 1 at the root's children and
grows by one per recursive ply, so no terminal-test invocation (in either
search) ever observes a depth below 1 or above `sd`. -/
theorem claim6_terminal_test_depth_bounded {G P : Type} (gs : GameSpec G P)
    (p : P) (sd : Nat) (g : G) (d₁ d₂ : Nat) (alpha beta : V) (rIdx₁ rIdx₂ : Nat)
    (h : 1 ≤ sd) :
    (∀ d : Nat, Ev.ttObs d ∈ (minimaxI gs p sd g d₁ rIdx₁).2 → 1 ≤ d ∧ d ≤ sd) ∧
    (∀ d : Nat, Ev.ttObs d ∈ (alphabetaI gs p sd g d₂ alpha beta rIdx₂).2 →
      1 ≤ d ∧ d ≤ sd) := by
  constructor
  · intro d he
    rcases minimaxI_evOk gs p sd g d₁ rIdx₁ _ he with ⟨m, hm⟩ | hok
    · cases hm
    · obtain ⟨h1, h2⟩ := hok
      exact ⟨h1, by omega⟩
  · intro d he
    rcases alphabetaI_evOk gs p sd g d₂ alpha beta rIdx₂ _ he with ⟨m, hm⟩ | hok
    · cases hm
    · obtain ⟨h1, h2⟩ := hok
      exact ⟨h1, by omega⟩

theorem claim6_witness :
    (1 ≤ 2 ∧ Ev.ttObs (G := Nat) (P := Bool) 2 ∈ (minimaxI gsA true 2 0 2 0).2) ∧
    (1 ≤ 2 ∧ 2 ≤ 2) :=
  ⟨⟨by omega,
    by simp [minimaxI, mmRootLoopI, mmMinValueI, mmMinLoopI, mmMaxValueI, mmMaxLoopI,
      gsA, pickMove, Vf] <;> decide⟩,
    (claim6_terminal_test_depth_bounded gsA true 2 0 2 2 ⊥ ⊤ 0 0 (by omega)).1 2
      (by simp [minimaxI, mmRootLoopI, mmMinValueI, mmMinLoopI, mmMaxValueI, mmMaxLoopI,
        gsA, pickMove, Vf] <;> decide)⟩

-- Fixture for move-visit order: the interior node 1 returns its legal moves
-- in the unsorted order [(5,5), (3,0)].
def gsB : GameSpec Nat Bool where
  legalMoves g :=
    if g = 0 then [(1, 0)]
    else if g = 1 then [(5, 5), (3, 0)]
    else []
  forecastMove _ m := m.1.toNat
  scoreFn g _ := Vf g
  mover g := g % 2 = 0

section VisitOrder

variable {G P : Type}

theorem evOk_visitsAt_zero (p : P) {r : Nat} {es : List (Ev G P)}
    (h : ∀ e ∈ es, EvOk p 1 r e) : visitsAt es 0 = [] := by
  rw [visitsAt, List.filterMap_eq_nil_iff]
  intro e he
  have := h e he
  cases e with
  | ttObs d => rfl
  | eval g q d => rfl
  | visit d m =>
    simp only [EvOk] at this
    simp only []
    rw [if_neg (by omega)]

theorem abRootLoopI_visits_zero (gs : GameSpec G P) (p : P) (g : G) (r : Nat) :
    ∀ (l : List Move) (best : Move) (alpha beta : V),
      visitsAt (abRootLoopI gs p g l best alpha beta r).2 0 = l := by
  intro l
  induction l with
  | nil => intro best alpha beta; simp [abRootLoopI, visitsAt]
  | cons a rest ih =>
    intro best alpha beta
    have hchild : visitsAt (abMinValueI gs p (gs.forecastMove g a) alpha beta 1 r).2 0 = [] :=
      evOk_visitsAt_zero p (fun e he => (abValueI_evOk gs p r _ alpha beta 1 e).1 he)
    by_cases hlt : alpha < (abMinValueI gs p (gs.forecastMove g a) alpha beta 1 r).1
    · have hev : (abRootLoopI gs p g (a :: rest) best alpha beta r).2
          = (Ev.visit 0 a :: (abMinValueI gs p (gs.forecastMove g a) alpha beta 1 r).2)
            ++ (abRootLoopI gs p g rest a
                (abMinValueI gs p (gs.forecastMove g a) alpha beta 1 r).1 beta r).2 := by
        simp only [abRootLoopI]
        rw [if_pos hlt]
      rw [hev]
      rw [visitsAt, List.filterMap_append, List.filterMap_cons]
      rw [← visitsAt, ← visitsAt, hchild, ih]
      simp
    · have hev : (abRootLoopI gs p g (a :: rest) best alpha beta r).2
          = (Ev.visit 0 a :: (abMinValueI gs p (gs.forecastMove g a) alpha beta 1 r).2)
            ++ (abRootLoopI gs p g rest best alpha beta r).2 := by
        simp only [abRootLoopI]
        rw [if_neg hlt]
      rw [hev]
      rw [visitsAt, List.filterMap_append, List.filterMap_cons]
      rw [← visitsAt, ← visitsAt, hchild, ih]
      simp

end VisitOrder

/-- Claim C9, counterexample: The claim says the children of every node — the
root and every interior node — are visited in ascending coordinate-sorted
order.  Only the root sorts (`for action in sorted(actions)`); the interior
`_max_value`/`_min_value` loops iterate `game.get_legal_moves()` in board
order.  In `gsB`, the depth-1 node's children are visited as
`[(5,5), (3,0)]`, which is not ascending. -/
theorem claim9_counterexample :
    visitsAt (alphabetaI gsB true 2 0 2 ⊥ ⊤ 0).2 1 = [(5, 5), (3, 0)] ∧
    ¬ moveLe (5, 5) (3, 0) := by
  constructor
  · simp [alphabetaI, abRootLoopI, abMinValueI, abMinLoopI, abMaxValueI, abMaxLoopI,
      gsB, pickMove, sortMoves, List.insertionSort, List.orderedInsert, Vf,
      visitsAt] <;> decide
  · decide

/-- Claim C9, amended: In alpha-beta search the moves of the *root* are
visited in ascending coordinate-sorted order (the visited root sequence is
sorted and a permutation of the root's legal-move list); the counterexample
shows interior nodes instead follow the order `get_legal_moves` returns. -/
theorem claim9_amended_root_visits_sorted {G P : Type} (gs : GameSpec G P)
    (p : P) (sd : Nat) (g : G) (depth : Nat) (alpha beta : V) (rIdx : Nat) :
    List.Sorted moveLe (visitsAt (alphabetaI gs p sd g depth alpha beta rIdx).2 0) ∧
    (visitsAt (alphabetaI gs p sd g depth alpha beta rIdx).2 0).Perm
      (gs.legalMoves g) := by
  by_cases h : gs.legalMoves g = []
  · rw [alphabetaI]
    rw [if_pos h]
    constructor
    · simp [visitsAt]
    · rw [h]
      simp [visitsAt]
  · rw [alphabetaI]
    rw [if_neg h]
    rw [abRootLoopI_visits_zero]
    exact ⟨List.sorted_insertionSort moveLe (gs.legalMoves g),
      List.perm_insertionSort moveLe (gs.legalMoves g)⟩

/-! ### Stateful (clock-threaded) embedding.

The Python clock is a zero-argument callable returning milliseconds left; it
is embedded as a function `Clock` from the number of calls made so far to
the reading, together with a call counter threaded through the search.  The
agent state threads the call counter and the `timeout_depths` diagnostic
list.  Raising `SearchTimeout` is the `TR.tout` result; as in the source it
carries the state (counter and recorded depths) at the raise. -/

abbrev Clock : Type := Nat → ℚ

/-- Mutable agent state during one decision: number of `time_left()` calls
made so far, and the accumulated `timeout_depths` list. -/
structure AgState where
  n : Nat
  tds : List Nat
  deriving DecidableEq, Repr

/-- A computation that either raises `SearchTimeout` (carrying the state at
the raise) or returns a value and the updated state. -/
inductive TR (α : Type) where
  | tout (s : AgState) : TR α
  | ok (a : α) (s : AgState) : TR α
  deriving DecidableEq

/-- One `time_left()` call. -/
def bump (s : AgState) : AgState := ⟨s.n + 1, s.tds⟩

/-- The clock check at the top of `minimax`/`alphabeta`:
`if self.time_left() < self.TIMER_THRESHOLD: raise SearchTimeout()`. -/
def topCheck (c : Clock) (thr : ℚ) (s : AgState) : TR Unit :=
  if c s.n < thr then TR.tout (bump s) else TR.ok () (bump s)

/-- The clock check at the top of `_terminal_test` (both players): on expiry
it appends the observed ply-depth to `timeout_depths` and raises. -/
def ttCheck (c : Clock) (thr : ℚ) (depth : Nat) (s : AgState) : TR Unit :=
  if c s.n < thr then TR.tout ⟨s.n + 1, s.tds ++ [depth]⟩ else TR.ok () (bump s)

section StatefulSearch

variable {G P : Type}

mutual
/-- `MinimaxPlayer._min_value` with the live clock. -/
def mmMinValueS (c : Clock) (thr : ℚ) (gs : GameSpec G P) (p : P) (g : G)
    (depth rem : Nat) (s : AgState) : TR V :=
  match ttCheck c thr depth s with
  | TR.tout s' => TR.tout s'
  | TR.ok _ s' =>
    if h : rem = 0 ∨ gs.legalMoves g = [] then TR.ok (gs.scoreFn g p) s'
    else mmMinLoopS c thr gs p g (gs.legalMoves g) ⊤ depth (rem - 1) s'
termination_by (rem, 0, 0)

/-- The loop of `MinimaxPlayer._min_value` with the live clock; a timeout in
a child propagates (`_min_value` has no handler). -/
def mmMinLoopS (c : Clock) (thr : ℚ) (gs : GameSpec G P) (p : P) (g : G)
    (l : List Move) (v : V) (depth r : Nat) (s : AgState) : TR V :=
  match l with
  | [] => TR.ok v s
  | a :: rest =>
    match mmMaxValueS c thr gs p (gs.forecastMove g a) (depth + 1) r s with
    | TR.tout s' => TR.tout s'
    | TR.ok w s' => mmMinLoopS c thr gs p g rest (min v w) depth r s'
termination_by (r, 1, l.length)

/-- `MinimaxPlayer._max_value` with the live clock. -/
def mmMaxValueS (c : Clock) (thr : ℚ) (gs : GameSpec G P) (p : P) (g : G)
    (depth rem : Nat) (s : AgState) : TR V :=
  match ttCheck c thr depth s with
  | TR.tout s' => TR.tout s'
  | TR.ok _ s' =>
    if h : rem = 0 ∨ gs.legalMoves g = [] then TR.ok (gs.scoreFn g p) s'
    else mmMaxLoopS c thr gs p g (gs.legalMoves g) ⊥ depth (rem - 1) s'
termination_by (rem, 0, 0)

/-- The loop of `MinimaxPlayer._max_value` with the live clock. -/
def mmMaxLoopS (c : Clock) (thr : ℚ) (gs : GameSpec G P) (p : P) (g : G)
    (l : List Move) (v : V) (depth r : Nat) (s : AgState) : TR V :=
  match l with
  | [] => TR.ok v s
  | a :: rest =>
    match mmMinValueS c thr gs p (gs.forecastMove g a) (depth + 1) r s with
    | TR.tout s' => TR.tout s'
    | TR.ok w s' => mmMaxLoopS c thr gs p g rest (max v w) depth r s'
termination_by (r, 1, l.length)
end

/-- The root loop of `MinimaxPlayer.minimax` with the live clock.  It sits
inside the method's `try/except SearchTimeout: pass`, so a timeout inside a
child is caught and the best move found so far is kept. -/
def mmRootLoopS (c : Clock) (thr : ℚ) (gs : GameSpec G P) (p : P) (g : G)
    (l : List Move) (best : Move) (bs : V) (r : Nat) (s : AgState) :
    Move × AgState :=
  match l with
  | [] => (best, s)
  | a :: rest =>
    match mmMinValueS c thr gs p (gs.forecastMove g a) 1 r s with
    | TR.tout s' => (best, s')
    | TR.ok sc s' =>
      if bs < sc then mmRootLoopS c thr gs p g rest a sc r s'
      else mmRootLoopS c thr gs p g rest best bs r s'

/-- `MinimaxPlayer.minimax` with the live clock.  The clock check at the top
is outside the `try`, so a timeout there propagates to the caller; `sd` is
`self.search_depth` and the `depth` argument is, as in the source, unused. -/
def minimaxS (c : Clock) (thr : ℚ) (gs : GameSpec G P) (p : P) (sd : Nat)
    (g : G) (depth rIdx : Nat) (s : AgState) : TR Move :=
  match topCheck c thr s with
  | TR.tout s' => TR.tout s'
  | TR.ok _ s' =>
    let actions := gs.legalMoves g
    if actions = [] then TR.ok (-1, -1) s'
    else
      let t := mmRootLoopS c thr gs p g actions (pickMove actions rIdx) ⊥ (sd - 1) s'
      TR.ok t.1 t.2

/-- `MinimaxPlayer.get_move`: wraps the single fixed-depth `minimax` call in
`try/except SearchTimeout`, returning the sentinel on a timeout. -/
def getMoveMM (c : Clock) (thr : ℚ) (gs : GameSpec G P) (p : P) (sd : Nat)
    (g : G) (rIdx : Nat) (s : AgState) : Move × AgState :=
  match minimaxS c thr gs p sd g sd rIdx s with
  | TR.tout s' => ((-1, -1), s')
  | TR.ok m s' => (m, s')

mutual
/-- `AlphaBetaPlayer._max_value` with the live clock. -/
def abMaxValueS (c : Clock) (thr : ℚ) (gs : GameSpec G P) (p : P) (g : G)
    (alpha beta : V) (depth rem : Nat) (s : AgState) : TR V :=
  match ttCheck c thr depth s with
  | TR.tout s' => TR.tout s'
  | TR.ok _ s' =>
    if h : rem = 0 ∨ gs.legalMoves g = [] then TR.ok (gs.scoreFn g p) s'
    else abMaxLoopS c thr gs p g (gs.legalMoves g) ⊥ alpha beta depth (rem - 1) s'
termination_by (rem, 0, 0)

/-- The pruning loop of `AlphaBetaPlayer._max_value` with the live clock. -/
def abMaxLoopS (c : Clock) (thr : ℚ) (gs : GameSpec G P) (p : P) (g : G)
    (l : List Move) (v alpha beta : V) (depth r : Nat) (s : AgState) : TR V :=
  match l with
  | [] => TR.ok v s
  | a :: rest =>
    match abMinValueS c thr gs p (gs.forecastMove g a) alpha beta (depth + 1) r s with
    | TR.tout s' => TR.tout s'
    | TR.ok w s' =>
      let v' := max v w
      if beta ≤ v' then TR.ok v' s'
      else abMaxLoopS c thr gs p g rest v' (max alpha v') beta depth r s'
termination_by (r, 1, l.length)

/-- `AlphaBetaPlayer._min_value` with the live clock. -/
def abMinValueS (c : Clock) (thr : ℚ) (gs : GameSpec G P) (p : P) (g : G)
    (alpha beta : V) (depth rem : Nat) (s : AgState) : TR V :=
  match ttCheck c thr depth s with
  | TR.tout s' => TR.tout s'
  | TR.ok _ s' =>
    if h : rem = 0 ∨ gs.legalMoves g = [] then TR.ok (gs.scoreFn g p) s'
    else abMinLoopS c thr gs p g (gs.legalMoves g) ⊤ alpha beta depth (rem - 1) s'
termination_by (rem, 0, 0)

/-- The pruning loop of `AlphaBetaPlayer._min_value` with the live clock. -/
def abMinLoopS (c : Clock) (thr : ℚ) (gs : GameSpec G P) (p : P) (g : G)
    (l : List Move) (v alpha beta : V) (depth r : Nat) (s : AgState) : TR V :=
  match l with
  | [] => TR.ok v s
  | a :: rest =>
    match abMaxValueS c thr gs p (gs.forecastMove g a) alpha beta (depth + 1) r s with
    | TR.tout s' => TR.tout s'
    | TR.ok w s' =>
      let v' := min v w
      if v' ≤ alpha then TR.ok v' s'
      else abMinLoopS c thr gs p g rest v' alpha (min beta v') depth r s'
termination_by (r, 1, l.length)
end

/-- The root loop of `AlphaBetaPlayer.alphabeta` with the live clock.  There
is no `try/except` here: a timeout in a child propagates to the caller. -/
def abRootLoopS (c : Clock) (thr : ℚ) (gs : GameSpec G P) (p : P) (g : G)
    (l : List Move) (best : Move) (alpha beta : V) (r : Nat) (s : AgState) :
    TR Move :=
  match l with
  | [] => TR.ok best s
  | a :: rest =>
    match abMinValueS c thr gs p (gs.forecastMove g a) alpha beta 1 r s with
    | TR.tout s' => TR.tout s'
    | TR.ok v s' =>
      if alpha < v then abRootLoopS c thr gs p g rest a v beta r s'
      else abRootLoopS c thr gs p g rest best alpha beta r s'

/-- `AlphaBetaPlayer.alphabeta` with the live clock.  `sd` is the value of
`self.search_depth` during the call; the `depth` argument is, as in the
source, unused. -/
def alphabetaS (c : Clock) (thr : ℚ) (gs : GameSpec G P) (p : P) (sd : Nat)
    (g : G) (depth : Nat) (alpha beta : V) (rIdx : Nat) (s : AgState) : TR Move :=
  match topCheck c thr s with
  | TR.tout s' => TR.tout s'
  | TR.ok _ s' =>
    let actions := gs.legalMoves g
    if actions = [] then TR.ok (-1, -1) s'
    else abRootLoopS c thr gs p g (sortMoves actions) (pickMove actions rIdx)
      alpha beta (sd - 1) s'

/-- Result of the iterative-deepening loop of `AlphaBetaPlayer.get_move`:
the move to return, the final agent state, the final value of the mutated
`search_depth` field, the completed iterations (depth, move) in order, and
whether the loop ended with an aborted attempt (`aborted`) or ran out of
fuel before the clock stopped it (`stopped = false`). -/
structure IterRes where
  move : Move
  state : AgState
  finalSd : Nat
  completed : List (Nat × Move)
  aborted : Bool
  stopped : Bool
  deriving DecidableEq, Repr

/-- The `while self.time_left() > self.TIMER_THRESHOLD` loop of
`AlphaBetaPlayer.get_move`: increment `self.search_depth`, call `alphabeta`
at it, save the result; a `SearchTimeout` from `alphabeta` ends the loop
(caught by the surrounding `try`).  `rs d` is the seeded random draw used by
the `alphabeta` invocation at depth `d`.  `fuel` bounds the number of
iterations of the shallow embedding; a run that exhausts it reports
`stopped = false`. -/
def getMoveABLoop (c : Clock) (thr : ℚ) (gs : GameSpec G P) (p : P) (g : G)
    (rs : Nat → Nat) : Nat → Nat → Move → AgState → IterRes
  | 0, sd, best, s => ⟨best, s, sd, [], false, false⟩
  | fuel + 1, sd, best, s =>
    if thr < c s.n then
      let s₀ := bump s
      let sd' := sd + 1
      match alphabetaS c thr gs p sd' g sd' ⊥ ⊤ (rs sd') s₀ with
      | TR.tout s₁ => ⟨best, s₁, sd', [], true, true⟩
      | TR.ok m s₁ =>
        let t := getMoveABLoop c thr gs p g rs fuel sd' m s₁
        ⟨t.move, t.state, t.finalSd, (sd', m) :: t.completed, t.aborted, t.stopped⟩
    else ⟨best, bump s, sd, [], false, true⟩

/-- `AlphaBetaPlayer.get_move`: set `search_depth` to 0, run the
iterative-deepening loop starting from the sentinel best move, and return
the best move of the last completed iteration together with the final state
and the final value of the `search_depth` field. -/
def getMoveAB (c : Clock) (thr : ℚ) (gs : GameSpec G P) (p : P) (g : G)
    (rs : Nat → Nat) (fuel : Nat) (s : AgState) : Move × AgState × Nat :=
  let t := getMoveABLoop c thr gs p g rs fuel 0 (-1, -1) s
  (t.move, t.state, t.finalSd)

/-- The move of the last completed iteration (`d` when none completed). -/
def lastCompleted : List (Nat × Move) → Move → Move
  | [], d => d
  | x :: xs, _ => lastCompleted xs x.2

end StatefulSearch

section DriverLemmas

variable {G P : Type}

theorem lastCompleted_cons (x : Nat × Move) (xs : List (Nat × Move)) (d : Move) :
    lastCompleted (x :: xs) d = lastCompleted xs x.2 := rfl

theorem lastCompleted_mem :
    ∀ (l : List (Nat × Move)) (d : Move), l ≠ [] → ∃ x ∈ l, lastCompleted l d = x.2 := by
  intro l
  induction l with
  | nil => intro d h; exact absurd rfl h
  | cons x xs ih =>
    intro d _
    by_cases hxs : xs = []
    · subst hxs
      exact ⟨x, List.mem_cons_self x [], rfl⟩
    · obtain ⟨y, hy, hval⟩ := ih x.2 hxs
      exact ⟨y, List.mem_cons_of_mem x hy, hval⟩

theorem getMoveABLoop_spec (c : Clock) (thr : ℚ) (gs : GameSpec G P) (p : P)
    (g : G) (rs : Nat → Nat) :
    ∀ (fuel sd : Nat) (best : Move) (s : AgState),
      (getMoveABLoop c thr gs p g rs fuel sd best s).move
        = lastCompleted (getMoveABLoop c thr gs p g rs fuel sd best s).completed best ∧
      (getMoveABLoop c thr gs p g rs fuel sd best s).completed.map Prod.fst
        = List.range' (sd + 1) (getMoveABLoop c thr gs p g rs fuel sd best s).completed.length ∧
      (getMoveABLoop c thr gs p g rs fuel sd best s).finalSd
        = sd + (getMoveABLoop c thr gs p g rs fuel sd best s).completed.length
          + (if (getMoveABLoop c thr gs p g rs fuel sd best s).aborted then 1 else 0) := by
  intro fuel
  induction fuel with
  | zero =>
    intro sd best s
    simp [getMoveABLoop, lastCompleted]
  | succ fuel ih =>
    intro sd best s
    by_cases hc : thr < c s.n
    · cases halph : alphabetaS c thr gs p (sd + 1) g (sd + 1) ⊥ ⊤ (rs (sd + 1)) (bump s) with
      | tout s₁ =>
        have ht : getMoveABLoop c thr gs p g rs (fuel + 1) sd best s
            = ⟨best, s₁, sd + 1, [], true, true⟩ := by
          simp only [getMoveABLoop]
          rw [if_pos hc, halph]
        rw [ht]
        simp [lastCompleted]
      | ok m s₁ =>
        have ht : getMoveABLoop c thr gs p g rs (fuel + 1) sd best s
            = ⟨(getMoveABLoop c thr gs p g rs fuel (sd + 1) m s₁).move,
              (getMoveABLoop c thr gs p g rs fuel (sd + 1) m s₁).state,
              (getMoveABLoop c thr gs p g rs fuel (sd + 1) m s₁).finalSd,
              (sd + 1, m) :: (getMoveABLoop c thr gs p g rs fuel (sd + 1) m s₁).completed,
              (getMoveABLoop c thr gs p g rs fuel (sd + 1) m s₁).aborted,
              (getMoveABLoop c thr gs p g rs fuel (sd + 1) m s₁).stopped⟩ := by
          simp only [getMoveABLoop]
          rw [if_pos hc, halph]
        obtain ⟨ih1, ih2, ih3⟩ := ih (sd + 1) m s₁
        rw [ht]
        refine ⟨?_, ?_, ?_⟩
        · simpa [lastCompleted_cons] using ih1
        · simp only [List.map_cons, List.length_cons]
          rw [List.range'_succ]
          simpa using ih2
        · simp only [List.length_cons]
          omega
    · have ht : getMoveABLoop c thr gs p g rs (fuel + 1) sd best s
          = ⟨best, bump s, sd, [], false, true⟩ := by
        simp only [getMoveABLoop]
        rw [if_neg hc]
      rw [ht]
      simp [lastCompleted]

end DriverLemmas

-- Clocks used by the concrete driver runs.
def cLow : Clock := fun _ => 0
def cC3 : Clock := fun n => if n ≤ 2 then (15 : ℚ) else 0
def cC8 : Clock := fun n => if n = 0 then (15 : ℚ) else 0

/-- Claim C10: After `AlphaBetaPlayer.get_move`, the `search_depth` field holds
the last depth attempted by the iterative-deepening loop — the number of
`alphabeta` invocations, i.e. the completed count plus one if an attempt was
aborted — and is 0 when the clock is already at or below the threshold at
the first check; moreover `alphabeta` ignores its `depth` argument entirely,
so any subsequent direct call searches to the mutated field value no matter
what depth is passed. -/
theorem claim10_search_depth_mutated {G P : Type} (gs : GameSpec G P) (p : P)
    (c : Clock) (thr : ℚ) (g : G) (rs : Nat → Nat) :
    (∀ (fuel : Nat) (s : AgState),
      (getMoveAB c thr gs p g rs fuel s).2.2
        = (getMoveABLoop c thr gs p g rs fuel 0 (-1, -1) s).completed.length
          + (if (getMoveABLoop c thr gs p g rs fuel 0 (-1, -1) s).aborted then 1 else 0)) ∧
    (∀ (fuel : Nat) (s : AgState), ¬ thr < c s.n →
      (getMoveAB c thr gs p g rs fuel s).2.2 = 0) ∧
    (∀ (sd : Nat) (g : G) (d₁ d₂ : Nat) (alpha beta : V) (rIdx : Nat) (s : AgState),
      alphabetaS c thr gs p sd g d₁ alpha beta rIdx s
        = alphabetaS c thr gs p sd g d₂ alpha beta rIdx s) := by
  refine ⟨?_, ?_, ?_⟩
  · intro fuel s
    have h := (getMoveABLoop_spec c thr gs p g rs fuel 0 (-1, -1) s).2.2
    simpa [getMoveAB] using h
  · intro fuel s hc
    cases fuel with
    | zero => simp [getMoveAB, getMoveABLoop]
    | succ fuel =>
      have ht : getMoveABLoop c thr gs p g rs (fuel + 1) 0 (-1, -1) s
          = ⟨(-1, -1), bump s, 0, [], false, true⟩ := by
        simp only [getMoveABLoop]
        rw [if_neg hc]
      simp [getMoveAB, ht]
  · intro sd g d₁ d₂ alpha beta rIdx s
    rfl

theorem claim10_witness :
    ¬ (10 : ℚ) < cLow 0 ∧ (getMoveAB cLow 10 gsB true 0 (fun _ => 0) 3 ⟨0, []⟩).2.2 = 0 :=
  ⟨by decide,
    (claim10_search_depth_mutated gsB true cLow 10 0 (fun _ => 0)).2.1 3 ⟨0, []⟩
      (by decide)⟩

/-- Claim C3, counterexample: The claim says a clock permitting exactly `k`
full searches before a reading at or below the threshold forces exactly
`k + 1` invocations (one aborted).  With `cC3` (readings 15, 15, 15, 0, …)
and threshold 10 on `gsB`, exactly one depth-limited search completes, the
first at-or-below-threshold reading is observed by the `while` condition
itself, and the loop stops with no aborted attempt: 1 invocation, not 2. -/
theorem claim3_counterexample :
    (getMoveABLoop cC3 10 gsB true 0 (fun _ => 0) 5 0 (-1, -1) ⟨0, []⟩).completed
      = [(1, (1, 0))] ∧
    (getMoveABLoop cC3 10 gsB true 0 (fun _ => 0) 5 0 (-1, -1) ⟨0, []⟩).aborted = false ∧
    (getMoveABLoop cC3 10 gsB true 0 (fun _ => 0) 5 0 (-1, -1) ⟨0, []⟩).stopped = true ∧
    (getMoveABLoop cC3 10 gsB true 0 (fun _ => 0) 5 0 (-1, -1) ⟨0, []⟩).move = (1, 0) := by
  refine ⟨?_, ?_, ?_, ?_⟩ <;>
    simp [getMoveABLoop, alphabetaS, abRootLoopS, abMinValueS, abMinLoopS,
      abMaxValueS, abMaxLoopS, topCheck, ttCheck, bump, cC3, gsB, pickMove,
      sortMoves, List.insertionSort, List.orderedInsert, Vf] <;> decide

/-- Claim C3, amended: For every clock: the driver returns the move of the
last fully completed search, the completed searches are at depths 1, 2, …,
`k` in order, and the number of `alphabeta` invocations (the final
`search_depth`) is `k` when the loop was stopped by its own clock check and
`k + 1` when a `(k+1)`-th attempt was aborted by `SearchTimeout`. -/
theorem claim3_amended_driver_contract {G P : Type} (gs : GameSpec G P) (p : P)
    (c : Clock) (thr : ℚ) (g : G) (rs : Nat → Nat) (fuel : Nat) (s : AgState) :
    (getMoveABLoop c thr gs p g rs fuel 0 (-1, -1) s).move
      = lastCompleted (getMoveABLoop c thr gs p g rs fuel 0 (-1, -1) s).completed
          (-1, -1) ∧
    (getMoveABLoop c thr gs p g rs fuel 0 (-1, -1) s).completed.map Prod.fst
      = List.range' 1 (getMoveABLoop c thr gs p g rs fuel 0 (-1, -1) s).completed.length ∧
    ((getMoveABLoop c thr gs p g rs fuel 0 (-1, -1) s).aborted = false →
      (getMoveABLoop c thr gs p g rs fuel 0 (-1, -1) s).finalSd
        = (getMoveABLoop c thr gs p g rs fuel 0 (-1, -1) s).completed.length) ∧
    ((getMoveABLoop c thr gs p g rs fuel 0 (-1, -1) s).aborted = true →
      (getMoveABLoop c thr gs p g rs fuel 0 (-1, -1) s).finalSd
        = (getMoveABLoop c thr gs p g rs fuel 0 (-1, -1) s).completed.length + 1) := by
  obtain ⟨h1, h2, h3⟩ := getMoveABLoop_spec c thr gs p g rs fuel 0 (-1, -1) s
  refine ⟨h1, h2, ?_, ?_⟩
  · intro hab
    rw [hab] at h3
    simpa using h3
  · intro hab
    rw [hab] at h3
    simpa using h3

theorem claim3_witness :
    (getMoveABLoop cC3 10 gsB true 0 (fun _ => 0) 5 0 (-1, -1) ⟨0, []⟩).aborted = false ∧
    (getMoveABLoop cC3 10 gsB true 0 (fun _ => 0) 5 0 (-1, -1) ⟨0, []⟩).finalSd
      = (getMoveABLoop cC3 10 gsB true 0 (fun _ => 0) 5 0 (-1, -1) ⟨0, []⟩).completed.length :=
  have hab : (getMoveABLoop cC3 10 gsB true 0 (fun _ => 0) 5 0 (-1, -1) ⟨0, []⟩).aborted
      = false := by
    simp [getMoveABLoop, alphabetaS, abRootLoopS, abMinValueS, abMinLoopS,
      abMaxValueS, abMaxLoopS, topCheck, ttCheck, bump, cC3, gsB, pickMove,
      sortMoves, List.insertionSort, List.orderedInsert, Vf] <;> decide
  ⟨hab,
    (claim3_amended_driver_contract gsB true cC3 10 0 (fun _ => 0) 5 ⟨0, []⟩).2.2.1 hab⟩

/-- Claim C4: For every state and every clock, `get_move` (both players) never
raises — it always yields a move.  If every clock reading is below the timer
threshold, both drivers return the sentinel `(-1, -1)`; otherwise the
iterative-deepening driver returns the move of the last completed search
(the sentinel if none completed), and the fixed-depth driver returns the
move `minimax` produced when it returned normally. -/
theorem claim4_get_move_total {G P : Type} (gs : GameSpec G P) (p : P)
    (c : Clock) (thr : ℚ) (sd : Nat) (g : G) (rIdx : Nat) (rs : Nat → Nat) :
    (∀ (s : AgState), (∀ n, c n < thr) →
      (getMoveMM c thr gs p sd g rIdx s).1 = (-1, -1)) ∧
    (∀ (fuel : Nat) (s : AgState), (∀ n, c n < thr) →
      (getMoveAB c thr gs p g rs fuel s).1 = (-1, -1)) ∧
    (∀ (fuel : Nat) (s : AgState),
      (getMoveAB c thr gs p g rs fuel s).1
        = lastCompleted (getMoveABLoop c thr gs p g rs fuel 0 (-1, -1) s).completed
            (-1, -1)) ∧
    (∀ (s : AgState) (m : Move) (s' : AgState),
      minimaxS c thr gs p sd g sd rIdx s = TR.ok m s' →
      (getMoveMM c thr gs p sd g rIdx s).1 = m) := by
  refine ⟨?_, ?_, ?_, ?_⟩
  · intro s hlow
    have htop : topCheck c thr s = TR.tout (bump s) := by
      rw [topCheck, if_pos (hlow s.n)]
    rw [getMoveMM, minimaxS, htop]
  · intro fuel s hlow
    cases fuel with
    | zero => simp [getMoveAB, getMoveABLoop]
    | succ fuel =>
      have hc : ¬ thr < c s.n := not_lt.mpr (le_of_lt (hlow s.n))
      have ht : getMoveABLoop c thr gs p g rs (fuel + 1) 0 (-1, -1) s
          = ⟨(-1, -1), bump s, 0, [], false, true⟩ := by
        simp only [getMoveABLoop]
        rw [if_neg hc]
      simp [getMoveAB, ht]
  · intro fuel s
    have h := (getMoveABLoop_spec c thr gs p g rs fuel 0 (-1, -1) s).1
    simpa [getMoveAB] using h
  · intro s m s' hok
    rw [getMoveMM, hok]

theorem claim4_witness :
    (∀ n, cLow n < 10) ∧
    (getMoveMM cLow 10 gsB true 3 0 0 ⟨0, []⟩).1 = (-1, -1) ∧
    (getMoveAB cLow 10 gsB true 0 (fun _ => 0) 4 ⟨0, []⟩).1 = (-1, -1) :=
  have hlow : ∀ n, cLow n < 10 := fun _ => by norm_num [cLow]
  ⟨hlow,
    (claim4_get_move_total gsB true cLow 10 3 0 0 (fun _ => 0)).1 ⟨0, []⟩ hlow,
    (claim4_get_move_total gsB true cLow 10 3 0 0 (fun _ => 0)).2.1 4 ⟨0, []⟩ hlow⟩

section MembershipLemmas

variable {G P : Type}

theorem mmRootLoopS_mem (c : Clock) (thr : ℚ) (gs : GameSpec G P) (p : P)
    (g : G) (r : Nat) (A : List Move) :
    ∀ (l : List Move) (best : Move) (bs : V) (s : AgState),
      best ∈ A → (∀ a ∈ l, a ∈ A) →
      (mmRootLoopS c thr gs p g l best bs r s).1 ∈ A := by
  intro l
  induction l with
  | nil =>
    intro best bs s hbest _
    simpa [mmRootLoopS] using hbest
  | cons a rest ih =>
    intro best bs s hbest hsub
    rw [mmRootLoopS]
    cases mmMinValueS c thr gs p (gs.forecastMove g a) 1 r s with
    | tout s' => exact hbest
    | ok sc s' =>
      dsimp only
      by_cases hlt : bs < sc
      · rw [if_pos hlt]
        exact ih a sc s' (hsub a (List.mem_cons_self a rest))
          (fun x hx => hsub x (List.mem_cons_of_mem a hx))
      · rw [if_neg hlt]
        exact ih best bs s' hbest (fun x hx => hsub x (List.mem_cons_of_mem a hx))

theorem abRootLoopS_mem (c : Clock) (thr : ℚ) (gs : GameSpec G P) (p : P)
    (g : G) (r : Nat) (A : List Move) :
    ∀ (l : List Move) (best : Move) (alpha beta : V) (s : AgState) (m : Move)
      (s' : AgState),
      best ∈ A → (∀ a ∈ l, a ∈ A) →
      abRootLoopS c thr gs p g l best alpha beta r s = TR.ok m s' → m ∈ A := by
  intro l
  induction l with
  | nil =>
    intro best alpha beta s m s' hbest _ hok
    rw [abRootLoopS] at hok
    cases hok
    exact hbest
  | cons a rest ih =>
    intro best alpha beta s m s' hbest hsub hok
    rw [abRootLoopS] at hok
    cases hv : abMinValueS c thr gs p (gs.forecastMove g a) alpha beta 1 r s with
    | tout s₁ => rw [hv] at hok; cases hok
    | ok v s₁ =>
      rw [hv] at hok
      dsimp only at hok
      by_cases hlt : alpha < v
      · rw [if_pos hlt] at hok
        exact ih a v beta s₁ m s' (hsub a (List.mem_cons_self a rest))
          (fun x hx => hsub x (List.mem_cons_of_mem a hx)) hok
      · rw [if_neg hlt] at hok
        exact ih best alpha beta s₁ m s' hbest
          (fun x hx => hsub x (List.mem_cons_of_mem a hx)) hok

theorem abLoopCompleted_mem (c : Clock) (thr : ℚ) (gs : GameSpec G P) (p : P)
    (g : G) (rs : Nat → Nat) (h : gs.legalMoves g ≠ []) :
    ∀ (fuel sd : Nat) (best : Move) (s : AgState),
      ∀ x ∈ (getMoveABLoop c thr gs p g rs fuel sd best s).completed,
        x.2 ∈ gs.legalMoves g := by
  intro fuel
  induction fuel with
  | zero => intro sd best s x hx; simp [getMoveABLoop] at hx
  | succ fuel ih =>
    intro sd best s x hx
    by_cases hc : thr < c s.n
    · cases halph : alphabetaS c thr gs p (sd + 1) g (sd + 1) ⊥ ⊤ (rs (sd + 1)) (bump s) with
      | tout s₁ =>
        have ht : getMoveABLoop c thr gs p g rs (fuel + 1) sd best s
            = ⟨best, s₁, sd + 1, [], true, true⟩ := by
          simp only [getMoveABLoop]
          rw [if_pos hc, halph]
        rw [ht] at hx
        simp at hx
      | ok m s₁ =>
        have hm : m ∈ gs.legalMoves g := by
          rw [alphabetaS] at halph
          cases htop : topCheck c thr (bump s) with
          | tout s₂ => rw [htop] at halph; cases halph
          | ok u s₂ =>
            rw [htop] at halph
            dsimp only at halph
            rw [if_neg h] at halph
            exact abRootLoopS_mem c thr gs p g (sd + 1 - 1) (gs.legalMoves g)
              (sortMoves (gs.legalMoves g)) (pickMove (gs.legalMoves g) (rs (sd + 1)))
              ⊥ ⊤ s₂ m s₁ (pickMove_mem _ _ h)
              (fun a ha => (List.perm_insertionSort moveLe (gs.legalMoves g)).mem_iff.mp ha)
              halph
        have ht : getMoveABLoop c thr gs p g rs (fuel + 1) sd best s
            = ⟨(getMoveABLoop c thr gs p g rs fuel (sd + 1) m s₁).move,
              (getMoveABLoop c thr gs p g rs fuel (sd + 1) m s₁).state,
              (getMoveABLoop c thr gs p g rs fuel (sd + 1) m s₁).finalSd,
              (sd + 1, m) :: (getMoveABLoop c thr gs p g rs fuel (sd + 1) m s₁).completed,
              (getMoveABLoop c thr gs p g rs fuel (sd + 1) m s₁).aborted,
              (getMoveABLoop c thr gs p g rs fuel (sd + 1) m s₁).stopped⟩ := by
          simp only [getMoveABLoop]
          rw [if_pos hc, halph]
        rw [ht] at hx
        rcases List.mem_cons.mp hx with hx | hx
        · rw [hx]; exact hm
        · exact ih (sd + 1) m s₁ x hx
    · have ht : getMoveABLoop c thr gs p g rs (fuel + 1) sd best s
          = ⟨best, bump s, sd, [], false, true⟩ := by
        simp only [getMoveABLoop]
        rw [if_neg hc]
      rw [ht] at hx
      simp at hx

end MembershipLemmas

/-- Claim C7, counterexample: The claim says any move returned by `get_move`
on a state with legal moves is legal (never the sentinel).  With a clock
already below the threshold, `AlphaBetaPlayer.get_move` returns the sentinel
`(-1, -1)` even though legal moves exist. -/
theorem claim7_counterexample :
    (getMoveAB cLow 10 gsB true 0 (fun _ => 0) 3 ⟨0, []⟩).1 = (-1, -1) ∧
    gsB.legalMoves 0 ≠ [] ∧
    ((-1, -1) : Move) ∉ gsB.legalMoves 0 := by
  refine ⟨?_, by decide, by decide⟩
  simp [getMoveAB, getMoveABLoop, cLow] <;> decide

/-- Claim C7, amended: Whenever the searches return a move at all, it is
legal: a `minimax` call that returns (even one interrupted by a timeout
during root enumeration, which is caught inside) yields a member of the
legal-move set, as does every normal return of `alphabeta`; the
iterative-deepening `get_move` returns a legal move whenever at least one
depth-limited search completed, but returns the sentinel when the clock
expires before the first iteration completes. -/
theorem claim7_amended_returned_moves_legal {G P : Type} (gs : GameSpec G P)
    (p : P) (c : Clock) (thr : ℚ) (sd : Nat) (g : G) (d₁ d₂ : Nat)
    (alpha beta : V) (rIdx : Nat) (rs : Nat → Nat) (fuel : Nat)
    (h : gs.legalMoves g ≠ []) :
    (∀ (s : AgState) (m : Move) (s' : AgState),
      minimaxS c thr gs p sd g d₁ rIdx s = TR.ok m s' → m ∈ gs.legalMoves g) ∧
    (∀ (s : AgState) (m : Move) (s' : AgState),
      alphabetaS c thr gs p sd g d₂ alpha beta rIdx s = TR.ok m s' →
        m ∈ gs.legalMoves g) ∧
    (∀ (s : AgState),
      (getMoveABLoop c thr gs p g rs fuel 0 (-1, -1) s).completed ≠ [] →
      (getMoveABLoop c thr gs p g rs fuel 0 (-1, -1) s).move ∈ gs.legalMoves g) := by
  refine ⟨?_, ?_, ?_⟩
  · intro s m s' hok
    rw [minimaxS] at hok
    cases htop : topCheck c thr s with
    | tout s₁ => rw [htop] at hok; cases hok
    | ok u s₁ =>
      rw [htop] at hok
      dsimp only at hok
      rw [if_neg h] at hok
      cases hok
      exact mmRootLoopS_mem c thr gs p g (sd - 1) (gs.legalMoves g)
        (gs.legalMoves g) (pickMove (gs.legalMoves g) rIdx) ⊥ s₁
        (pickMove_mem _ _ h) (fun a ha => ha)
  · intro s m s' hok
    rw [alphabetaS] at hok
    cases htop : topCheck c thr s with
    | tout s₁ => rw [htop] at hok; cases hok
    | ok u s₁ =>
      rw [htop] at hok
      dsimp only at hok
      rw [if_neg h] at hok
      exact abRootLoopS_mem c thr gs p g (sd - 1) (gs.legalMoves g)
        (sortMoves (gs.legalMoves g)) (pickMove (gs.legalMoves g) rIdx)
        alpha beta s₁ m s' (pickMove_mem _ _ h)
        (fun a ha => (List.perm_insertionSort moveLe (gs.legalMoves g)).mem_iff.mp ha)
        hok
  · intro s hne
    have hmove := (getMoveABLoop_spec c thr gs p g rs fuel 0 (-1, -1) s).1
    obtain ⟨x, hxmem, hxval⟩ :=
      lastCompleted_mem (getMoveABLoop c thr gs p g rs fuel 0 (-1, -1) s).completed
        (-1, -1) hne
    rw [hmove, hxval]
    exact abLoopCompleted_mem c thr gs p g rs h fuel 0 (-1, -1) s x hxmem

theorem claim7_witness :
    gsB.legalMoves 0 ≠ [] ∧
    (getMoveABLoop cC3 10 gsB true 0 (fun _ => 0) 5 0 (-1, -1) ⟨0, []⟩).completed ≠ [] ∧
    (getMoveABLoop cC3 10 gsB true 0 (fun _ => 0) 5 0 (-1, -1) ⟨0, []⟩).move
      ∈ gsB.legalMoves 0 :=
  have hne : (getMoveABLoop cC3 10 gsB true 0 (fun _ => 0) 5 0 (-1, -1) ⟨0, []⟩).completed
      ≠ [] := by
    simp [getMoveABLoop, alphabetaS, abRootLoopS, abMinValueS, abMinLoopS,
      abMaxValueS, abMaxLoopS, topCheck, ttCheck, bump, cC3, gsB, pickMove,
      sortMoves, List.insertionSort, List.orderedInsert, Vf] <;> decide
  ⟨by decide, hne,
    (claim7_amended_returned_moves_legal gsB true cC3 10 1 0 1 1 ⊥ ⊤ 0 (fun _ => 0) 5
      (by decide)).2.2 ⟨0, []⟩ hne⟩

/-- Claim C8: The two drivers retain interrupted work differently: once past
the clock check at its top, a `MinimaxPlayer.minimax` call never propagates
a timeout — the root loop's `try/except` converts a timeout during
root-level enumeration into a normal return of the best move so far —
whereas `AlphaBetaPlayer.alphabeta` has no handler, so a timeout inside its
search propagates to the caller (here shown concretely: the clock expires at
the first child, the call yields `SearchTimeout`, and the depth is recorded
in `timeout_depths`). -/
theorem claim8_retention_policies {G P : Type} (gs : GameSpec G P) (p : P)
    (c : Clock) (thr : ℚ) (sd : Nat) (g : G) (d rIdx : Nat) :
    (∀ (s : AgState), ¬ c s.n < thr →
      ∃ (m : Move) (s' : AgState), minimaxS c thr gs p sd g d rIdx s = TR.ok m s') ∧
    alphabetaS cC8 10 gsB true 1 0 1 ⊥ ⊤ 0 ⟨0, []⟩ = TR.tout ⟨2, [1]⟩ := by
  constructor
  · intro s hc
    have htop : topCheck c thr s = TR.ok () (bump s) := by
      rw [topCheck, if_neg hc]
    rw [minimaxS, htop]
    dsimp only
    by_cases hleg : gs.legalMoves g = []
    · rw [if_pos hleg]
      exact ⟨(-1, -1), bump s, rfl⟩
    · rw [if_neg hleg]
      exact ⟨_, _, rfl⟩
  · simp [alphabetaS, abRootLoopS, abMinValueS, abMinLoopS, abMaxValueS,
      abMaxLoopS, topCheck, ttCheck, bump, cC8, gsB, pickMove, sortMoves,
      List.insertionSort, List.orderedInsert, Vf] <;> decide

theorem claim8_witness :
    ¬ cC8 0 < (10 : ℚ) ∧
    ∃ (m : Move) (s' : AgState),
      minimaxS cC8 10 gsB true 1 0 1 0 ⟨0, []⟩ = TR.ok m s' :=
  ⟨by decide,
    (claim8_retention_policies gsB true cC8 10 1 0 1 0).1 ⟨0, []⟩ (by decide)⟩
